import Mathlib

/-!
Verification of the in-memory record store
(`src/mongo/db/storage/in_memory/in_memory_record_store.cpp`).

The store keeps an ordered map from record identifiers to byte payloads
(`std::map<RecordId, InMemoryRecord>`), an aggregate byte counter
(`dataSize`), a monotone identifier allocator (`nextId`) and an
oplog-mode flag.  We embed the ordered map as a list of key/record pairs
kept strictly ascending by key; record identifiers are naturals with `0`
playing the role of the null `RecordId()`.  The record shape
(payload bytes, with `size` its length) and the `Data` fields follow the
data model of the header, which matches the fields used throughout the
`.cpp` file.
-/

namespace InMemoryRS

/-- A stored record: the owned payload bytes (`InMemoryRecord::data`);
its `size` field always equals the payload length (the constructor
allocates `size` bytes and `memcpy` fills all of them). -/
structure Rec where
  data : List Nat
  deriving DecidableEq, Repr

/-- `InMemoryRecord::size`. -/
def Rec.size (r : Rec) : Nat := r.data.length

/-- The ordered map `Records = std::map<RecordId, InMemoryRecord>`,
embedded as an association list strictly ascending by key. -/
abbrev Records := List (Nat × Rec)

/-- Strict ascending key order: the `std::map` ordering invariant. -/
def Sorted (rs : Records) : Prop := List.Chain' (fun a b => a.1 < b.1) rs

/-- Executable check for `Sorted`. -/
def sortedChk : Records → Bool
  | [] => true
  | [_] => true
  | p :: q :: t => decide (p.1 < q.1) && sortedChk (q :: t)

theorem sortedChk_iff (rs : Records) : sortedChk rs = true ↔ Sorted rs := by
  induction rs with
  | nil => simp [sortedChk, Sorted]
  | cons p t ih =>
    cases t with
    | nil => simp [sortedChk, Sorted]
    | cons q t2 =>
      simp only [sortedChk, Bool.and_eq_true, decide_eq_true_eq]
      constructor
      · rintro ⟨h1, h2⟩
        exact List.chain'_cons.mpr ⟨h1, ih.mp h2⟩
      · intro h
        exact ⟨(List.chain'_cons.mp h).1, ih.mpr (List.chain'_cons.mp h).2⟩

instance (rs : Records) : Decidable (Sorted rs) :=
  decidable_of_iff (sortedChk rs = true) (sortedChk_iff rs)

/-- `records.find(k)`: the record stored at key `k`, if any. -/
def rfind (k : Nat) : Records → Option Rec
  | [] => none
  | (k', v') :: t => if k = k' then some v' else rfind k t

/-- `records[k] = v`: insert-or-assign keeping keys sorted. -/
def rinsert (k : Nat) (v : Rec) : Records → Records
  | [] => [(k, v)]
  | (k', v') :: t =>
    if k < k' then (k, v) :: (k', v') :: t
    else if k = k' then (k, v) :: t
    else (k', v') :: rinsert k v t

/-- `records.erase(k)`: remove the entry with key `k` (first match). -/
def rerase (k : Nat) : Records → Records
  | [] => []
  | (k', v') :: t => if k = k' then t else (k', v') :: rerase k t

/-- Sum of the stored records' sizes, as the `int64_t` counter counts it. -/
def sumSizes (rs : Records) : Int := (rs.map (fun p => (p.2.size : Int))).sum

/-- The shared table state `InMemoryRecordStore::Data`. -/
structure Data where
  records : Records
  dataSize : Int
  nextId : Nat
  isOplog : Bool
  deriving DecidableEq, Repr

/-- Construction-time configuration of one store handle: the capped
parameters and the capped-delete callback.  `cappedMaxSize` and
`cappedMaxDocs` are `int64_t` with `-1` the unbounded sentinel; the
callback (`aboutToDeleteCapped`) reports success as `true`. -/
structure Cfg where
  isCapped : Bool
  cappedMaxSize : Int
  cappedMaxDocs : Int
  hook : Option (Nat → Rec → Bool)

/-- The constructor invariants on the capped parameters. -/
def CfgWF (cfg : Cfg) : Prop :=
  if cfg.isCapped then
    0 < cfg.cappedMaxSize ∧ (cfg.cappedMaxDocs = -1 ∨ 0 < cfg.cappedMaxDocs)
  else cfg.cappedMaxSize = -1 ∧ cfg.cappedMaxDocs = -1

/-- The three `RecoveryUnit::Change` variants registered by the store.
`truncateChange` carries the records and byte counter swapped out at
construction time (`TruncateChange` swaps on construction). -/
inductive Change where
  | insertChange (loc : Nat)
  | removeChange (loc : Nat) (rec : Rec)
  | truncateChange (records : Records) (dataSize : Int)
  deriving DecidableEq, Repr

/-- The recoverable error statuses surfaced by the store. -/
inductive Err where
  /-- `BadValue`, "object to insert exceeds cappedMaxSize". -/
  | oversized
  /-- `BadValue`, "ts not higher than highest". -/
  | outOfOrder
  /-- oploghack::extractKey failed on the payload. -/
  | malformedLog
  /-- `InternalError` 10003, "objects in a capped ns cannot grow". -/
  | cappedGrowth
  /-- the `UpdateNotifier` returned a non-OK status. -/
  | notifierFailed
  /-- `aboutToDeleteCapped` returned non-OK and `uassertStatusOK` threw. -/
  | hookFailed
  deriving DecidableEq, Repr

/-- Outcome of one mutating call: the table state after the call, the
changes it registered with the recovery unit (in registration order),
and the returned status.  A thrown `uassert` is recorded as an error
status; the registered changes remain registered either way. -/
structure OpResult (α : Type) where
  d : Data
  changes : List Change
  res : Except Err α
  deriving Repr

/-- `InsertChange::rollback` / `RemoveChange::rollback` /
`TruncateChange::rollback`, exactly as the source writes them. -/
def rollbackChange (c : Change) (d : Data) : Data :=
  match c with
  | .insertChange loc =>
    match rfind loc d.records with
    | some r => { d with dataSize := d.dataSize - r.size, records := rerase loc d.records }
    | none => d
  | .removeChange loc rec =>
    let d1 :=
      match rfind loc d.records with
      | some r => { d with dataSize := d.dataSize - r.size }
      | none => d
    { d1 with dataSize := d1.dataSize + rec.size, records := rinsert loc rec d1.records }
  | .truncateChange rs sz => { d with records := rs, dataSize := sz }

/-- Applying a list of changes' rollbacks in the order given (callers
pass the reverse of registration order, as a transaction abort does). -/
def rollbackAll (cs : List Change) (d : Data) : Data :=
  cs.foldl (fun s c => rollbackChange c s) d

/-- `InMemoryRecordStore::deleteRecord`: fatal (`none`) when the record
is absent (`recordFor` `invariant`); otherwise registers a
`RemoveChange`, decrements `dataSize` and erases the entry. -/
def deleteRecord (d : Data) (loc : Nat) : Option (Data × Change) :=
  match rfind loc d.records with
  | none => none
  | some rec =>
    some ({ d with records := rerase loc d.records, dataSize := d.dataSize - rec.size },
          .removeChange loc rec)

/-- `InMemoryRecordStore::cappedAndNeedDelete`. -/
def cappedAndNeedDelete (cfg : Cfg) (d : Data) : Bool :=
  if !cfg.isCapped then false
  else if d.dataSize > cfg.cappedMaxSize then true
  else if cfg.cappedMaxDocs != -1 && (d.records.length : Int) > cfg.cappedMaxDocs then true
  else false

/-- Result of the capped-delete callback at one record (`true` when no
callback is installed, mirroring the null check). -/
def hookOk (cfg : Cfg) (id : Nat) (rec : Rec) : Bool :=
  match cfg.hook with
  | none => true
  | some f => f id rec

/-- `InMemoryRecordStore::cappedDeleteAsNeeded`: while the table is over
its ceiling, invoke the callback on the oldest record and delete it
(each deletion journaled).  The boolean reports whether the loop ended
normally (`true`) or a callback failure threw (`false`).  `none` marks
the fatal `invariant(!records.empty())`.  The loop runs at most once per
stored record, so callers pass `fuel = records.length`; the fuel-0
spill-over case repeats the loop guard so that exhausted fuel with the
guard still true is also fatal. -/
def cappedDeleteAsNeeded (cfg : Cfg) : Nat → Data → Option (Data × List Change × Bool)
  | 0, d =>
    if cappedAndNeedDelete cfg d then none else some (d, [], true)
  | fuel + 1, d =>
    if cappedAndNeedDelete cfg d then
      match d.records with
      | [] => none
      | (id, rec) :: _ =>
        if hookOk cfg id rec then
          match deleteRecord d id with
          | none => none
          | some (d', c) =>
            match cappedDeleteAsNeeded cfg fuel d' with
            | none => none
            | some (d'', cs, b) => some (d'', c :: cs, b)
        else some (d, [], false)
    else some (d, [], true)

/-- `InMemoryRecordStore::extractAndCheckLocForOplog`.  The
`oploghack::extractKey` parse of the payload is represented by its
outcome `candidate` (`none` = parse failure). -/
def extractAndCheckLocForOplog (d : Data) (candidate : Option Nat) : Except Err Nat :=
  match candidate with
  | none => .error .malformedLog
  | some c =>
    if d.records ≠ [] ∧ c ≤ ((d.records.getLast?.map Prod.fst).getD 0) then
      .error .outOfOrder
    else .ok c

/-- `InMemoryRecordStore::allocateLoc`. -/
def allocateLoc (d : Data) : Nat × Data :=
  (d.nextId, { d with nextId := d.nextId + 1 })

/-- `InMemoryRecordStore::insertRecord` (the `char*` overload):
capped-size gate, identifier choice (oplog extraction or allocator),
journal registration, eager mutation, then capped eviction. -/
def insertRecord (cfg : Cfg) (d : Data) (payload : List Nat) (candidate : Option Nat) :
    Option (OpResult Nat) :=
  let len : Int := payload.length
  if cfg.isCapped ∧ len > cfg.cappedMaxSize then
    some ⟨d, [], .error .oversized⟩
  else
    let withLoc : Except Err (Nat × Data) :=
      if d.isOplog then
        (extractAndCheckLocForOplog d candidate).map (fun c => (c, d))
      else .ok (allocateLoc d)
    match withLoc with
    | .error e => some ⟨d, [], .error e⟩
    | .ok (loc, d0) =>
      let d1 : Data :=
        { d0 with dataSize := d0.dataSize + len,
                  records := rinsert loc ⟨payload⟩ d0.records }
      match cappedDeleteAsNeeded cfg d1.records.length d1 with
      | none => none
      | some (d2, cs, ok) =>
        some ⟨d2, .insertChange loc :: cs, if ok then .ok loc else .error .hookFailed⟩

/-- `InMemoryRecordStore::updateRecord`: fatal on a missing record;
capped-growth gate; optional `UpdateNotifier` consulted before any
mutation; then journal, replace, adjust `dataSize`, evict. -/
def updateRecord (cfg : Cfg) (notifier : Option (Nat → Bool)) (d : Data) (loc : Nat)
    (payload : List Nat) : Option (OpResult Nat) :=
  match rfind loc d.records with
  | none => none
  | some oldRec =>
    let len : Int := payload.length
    if cfg.isCapped ∧ len > (oldRec.size : Int) then
      some ⟨d, [], .error .cappedGrowth⟩
    else if (match notifier with | none => true | some f => f loc) = false then
      some ⟨d, [], .error .notifierFailed⟩
    else
      let d1 : Data :=
        { d with dataSize := d.dataSize + len - oldRec.size,
                 records := rinsert loc ⟨payload⟩ d.records }
      match cappedDeleteAsNeeded cfg d1.records.length d1 with
      | none => none
      | some (d2, cs, ok) =>
        some ⟨d2, .removeChange loc oldRec :: cs,
              if ok then .ok loc else .error .hookFailed⟩

/-- A `{sourceOffset, targetOffset, size}` entry of a `DamageVector`. -/
structure Damage where
  sourceOffset : Nat
  targetOffset : Nat
  size : Nat
  deriving DecidableEq, Repr

/-- One `memcpy(root + targetOffset, damageSource + sourceOffset, size)`
onto a fixed-length buffer; reads beyond the source read `0` (the C++
would be out-of-range there). -/
def applyDamage (source : List Nat) (data : List Nat) (dmg : Damage) : List Nat :=
  (List.range data.length).map (fun i =>
    if dmg.targetOffset ≤ i ∧ i < dmg.targetOffset + dmg.size then
      source.getD (dmg.sourceOffset + (i - dmg.targetOffset)) 0
    else data.getD i 0)

/-- `InMemoryRecordStore::updateWithDamages`: fatal on a missing record;
journals the old record, replaces it by a same-bytes copy, re-evaluates
capped eviction, then applies the damage list in order onto the copy's
buffer (which the map entry aliases, so the stored record ends up
patched whenever it survived eviction).  A callback failure inside the
eviction loop throws before any patch byte is written. -/
def updateWithDamages (cfg : Cfg) (d : Data) (loc : Nat) (source : List Nat)
    (damages : List Damage) : Option (OpResult (List Nat)) :=
  match rfind loc d.records with
  | none => none
  | some oldRec =>
    let d1 : Data := { d with records := rinsert loc oldRec d.records }
    match cappedDeleteAsNeeded cfg d1.records.length d1 with
    | none => none
    | some (d2, cs, ok) =>
      if ok then
        let patched := damages.foldl (applyDamage source) oldRec.data
        let d3 : Data :=
          if (rfind loc d2.records).isSome then
            { d2 with records := rinsert loc ⟨patched⟩ d2.records }
          else d2
        some ⟨d3, .removeChange loc oldRec :: cs, .ok patched⟩
      else some ⟨d2, .removeChange loc oldRec :: cs, .error .hookFailed⟩

/-- `InMemoryRecordStore::truncate`: `TruncateChange` swaps the records
and byte counter out at registration time. -/
def truncateStore (d : Data) : Data × Change :=
  ({ d with records := [], dataSize := 0 }, .truncateChange d.records d.dataSize)

/-- `InMemoryRecordStore::findRecord`: pure lookup. -/
def findRecord (d : Data) (loc : Nat) : Option Rec := rfind loc d.records

/-! ### Cursors

A map iterator is represented by the key it points at (`none` = end /
rend).  Stepping a valid forward iterator moves to the next larger key,
a reverse one to the next smaller key, which is exactly what `++_it`
does on a `std::map` (const_)iterator pointing at a live entry.  A
cursor reads the shared table through arguments, since the table mutates
between calls. -/

/-- Cursor bookkeeping shared by both directions: current position
(`none` = end), `_needFirstSeek`, `_lastMoveWasRestore`, and the saved
`RecordId` (`0` = the null `RecordId()`). -/
structure CursorState where
  pos : Option Nat
  needFirstSeek : Bool
  lastMoveWasRestore : Bool
  savedId : Nat
  deriving DecidableEq, Repr

/-- A freshly constructed cursor. -/
def CursorState.init : CursorState :=
  { pos := none, needFirstSeek := true, lastMoveWasRestore := false, savedId := 0 }

/-- First key `≥ s` in an ascending list (`records.lower_bound(s)`). -/
def lowerBoundKey (s : Nat) : Records → Option Nat
  | [] => none
  | (k, _) :: t => if s ≤ k then some k else lowerBoundKey s t

/-- First key `> k` in an ascending list: where `++_it` lands from `k`. -/
def succKey (k : Nat) : Records → Option Nat
  | [] => none
  | (k', _) :: t => if k < k' then some k' else succKey k t

/-- Last key `< k` in an ascending list: where reverse `++_it` lands. -/
def predKey (k : Nat) : Records → Option Nat
  | [] => none
  | (k', _) :: t => if k' < k then some ((predKey k t).getD k') else none

/-- Last key `≤ s` in an ascending list: where
`const_reverse_iterator(records.upper_bound(s))` dereferences. -/
def lastLEKey (s : Nat) : Records → Option Nat
  | [] => none
  | (k, _) :: t => if k ≤ s then some ((lastLEKey s t).getD k) else none

/-- The record the iterator dereferences to, if not at end. -/
def derefAt (rs : Records) : Option Nat → Option (Nat × Rec)
  | none => none
  | some k => (rfind k rs).map (fun r => (k, r))

/-- `Cursor::next` (forward). -/
def fwdNext (rs : Records) (c : CursorState) : Option (Nat × Rec) × CursorState :=
  let c1 :=
    if c.needFirstSeek then
      { c with needFirstSeek := false, pos := rs.head?.map Prod.fst }
    else if ¬c.lastMoveWasRestore ∧ c.pos ≠ none then
      { c with pos := match c.pos with | none => none | some k => succKey k rs }
    else c
  let c2 := { c1 with lastMoveWasRestore := false }
  (derefAt rs c2.pos, c2)

/-- `Cursor::seekExact` (forward). -/
def fwdSeekExact (rs : Records) (c : CursorState) (id : Nat) :
    Option (Nat × Rec) × CursorState :=
  let found := rfind id rs
  let c1 := { c with lastMoveWasRestore := false, needFirstSeek := false,
                     pos := found.map (fun _ => id) }
  (found.map (fun r => (id, r)), c1)

/-- `Cursor::save` (both directions read only the iterator's key). -/
def cursorSave (c : CursorState) : CursorState :=
  if ¬c.needFirstSeek ∧ ¬c.lastMoveWasRestore then
    { c with savedId := (c.pos).getD 0 }
  else c

/-- `Cursor::saveUnpositioned`. -/
def cursorSaveUnpositioned (c : CursorState) : CursorState :=
  { c with savedId := 0 }

/-- `Cursor::restore` (forward): reposition at `lower_bound(_savedId)`;
the restore flag records whether the exact entry is gone; a capped
cursor reports failure in that case. -/
def fwdRestore (isCapped : Bool) (rs : Records) (c : CursorState) :
    Bool × CursorState :=
  if c.savedId = 0 then (true, { c with pos := none })
  else
    let p := lowerBoundKey c.savedId rs
    let lmr := p = none ∨ p ≠ some c.savedId
    (¬(isCapped ∧ lmr), { c with pos := p, lastMoveWasRestore := decide lmr })

/-- `ReverseCursor::next`. -/
def revNext (rs : Records) (c : CursorState) : Option (Nat × Rec) × CursorState :=
  let c1 :=
    if c.needFirstSeek then
      { c with needFirstSeek := false, pos := rs.getLast?.map Prod.fst }
    else if ¬c.lastMoveWasRestore ∧ c.pos ≠ none then
      { c with pos := match c.pos with | none => none | some k => predKey k rs }
    else c
  let c2 := { c1 with lastMoveWasRestore := false }
  (derefAt rs c2.pos, c2)

/-- `ReverseCursor::seekExact`: on a miss the iterator is set to `rend`. -/
def revSeekExact (rs : Records) (c : CursorState) (id : Nat) :
    Option (Nat × Rec) × CursorState :=
  let found := rfind id rs
  let c1 := { c with lastMoveWasRestore := false, needFirstSeek := false,
                     pos := found.map (fun _ => id) }
  (found.map (fun r => (id, r)), c1)

/-- `ReverseCursor::restore`: reposition at the last entry `≤ _savedId`
(`const_reverse_iterator(upper_bound(_savedId))`). -/
def revRestore (isCapped : Bool) (rs : Records) (c : CursorState) :
    Bool × CursorState :=
  if c.savedId = 0 then (true, { c with pos := none })
  else
    let p := lastLEKey c.savedId rs
    let lmr := p = none ∨ p ≠ some c.savedId
    (¬(isCapped ∧ lmr), { c with pos := p, lastMoveWasRestore := decide lmr })

/-! ### oplogStartHack -/

/-- Outcome of `InMemoryRecordStore::oplogStartHack`: `boost::none`
(non-oplog store), a `RecordId` value, or the undefined behaviour of
decrementing `records.begin()`. -/
inductive OplogStart where
  | noneRes
  | idRes (v : Nat)
  | undef
  deriving DecidableEq, Repr

/-- Core of `oplogStartHack` on a non-empty table: `lower_bound(start)` is
the first entry of the `dropWhile (key < start)` suffix; the code steps
back once when the lower bound is `end()` or strictly past `start`, and
stepping back from `begin()` (an empty `takeWhile` prefix) is the
undefined-behaviour outcome. -/
def osCore (rs : Records) (start : Nat) : OplogStart :=
  let before := rs.takeWhile (fun p => decide (p.1 < start))
  let after := rs.dropWhile (fun p => decide (p.1 < start))
  match after.head? with
  | some (k, _) =>
    if start < k then
      match before.getLast? with
      | none => .undef
      | some (k2, _) => .idRes k2
    else .idRes k
  | none =>
    match before.getLast? with
    | none => .undef
    | some (k2, _) => .idRes k2

/-- `InMemoryRecordStore::oplogStartHack`: `boost::none` for a non-oplog
store, the null `RecordId()` for an empty table, else the
`lower_bound`/decrement computation of `osCore`. -/
def oplogStartHack (d : Data) (start : Nat) : OplogStart :=
  if d.isOplog = false then .noneRes
  else if d.records.isEmpty then .idRes 0
  else osCore d.records start

/-! ### Operation sequences and well-formedness -/

/-- One mutating call of a transaction, for the rollback property: the
notifier verdict of an update is abstracted to the boolean the
`UpdateNotifier` would return. -/
inductive Op where
  | ins (payload : List Nat) (candidate : Option Nat)
  | del (loc : Nat)
  | upd (loc : Nat) (payload : List Nat) (notifierOk : Bool)
  | trunc

/-- Apply one operation; `none` is a fatal invariant failure.  The
change list is in registration order; recoverable errors keep whatever
changes were registered before the throw. -/
def applyOp (cfg : Cfg) (d : Data) : Op → Option (Data × List Change)
  | .ins payload candidate =>
    (insertRecord cfg d payload candidate).map (fun r => (r.d, r.changes))
  | .del loc => (deleteRecord d loc).map (fun p => (p.1, [p.2]))
  | .upd loc payload nok =>
    (updateRecord cfg (some (fun _ => nok)) d loc payload).map (fun r => (r.d, r.changes))
  | .trunc =>
    let p := truncateStore d
    some (p.1, [p.2])

/-- Apply a sequence of operations, accumulating registered changes in
registration order. -/
def applySeq (cfg : Cfg) : Data → List Op → Option (Data × List Change)
  | d, [] => some (d, [])
  | d, op :: ops =>
    match applyOp cfg d op with
    | none => none
    | some (d1, cs1) =>
      match applySeq cfg d1 ops with
      | none => none
      | some (d2, cs2) => some (d2, cs1 ++ cs2)

/-- Table well-formedness: ascending keys, the §3 byte-count invariant,
and (for allocator tables) freshness of `nextId`. -/
def WF (d : Data) : Prop :=
  Sorted d.records ∧ d.dataSize = sumSizes d.records ∧
    (d.isOplog = false → ∀ p ∈ d.records, p.1 < d.nextId)

instance (d : Data) : Decidable (WF d) :=
  inferInstanceAs (Decidable (Sorted d.records ∧ d.dataSize = sumSizes d.records ∧
    (d.isOplog = false → ∀ p ∈ d.records, p.1 < d.nextId)))

/-! ### Lemmas on the sorted association list -/

theorem sorted_head_lt {q : Nat × Rec} {t : Records} (h : Sorted (q :: t)) :
    ∀ p ∈ t, q.1 < p.1 := by
  induction t generalizing q with
  | nil => intro p hp; cases hp
  | cons r t ih =>
    have h' := List.chain'_cons.mp h
    intro p hp
    cases hp with
    | head => exact h'.1
    | tail _ hp => exact lt_trans h'.1 (ih h'.2 p hp)

theorem sorted_tail {q : Nat × Rec} {t : Records} (h : Sorted (q :: t)) :
    Sorted t :=
  List.Chain'.tail h

theorem sorted_cons_of {q : Nat × Rec} {t : Records} (ht : Sorted t)
    (hlt : ∀ p ∈ t, q.1 < p.1) : Sorted (q :: t) := by
  cases t with
  | nil => exact List.chain'_singleton q
  | cons r t => exact List.chain'_cons.mpr ⟨hlt r (List.mem_cons_self r t), ht⟩

theorem mem_rinsert {p : Nat × Rec} {k : Nat} {v : Rec} {rs : Records}
    (h : p ∈ rinsert k v rs) : p = (k, v) ∨ p ∈ rs := by
  induction rs with
  | nil => simpa [rinsert] using h
  | cons q t ih =>
    by_cases h1 : k < q.1
    · simp only [rinsert, if_pos h1, List.mem_cons] at h
      rcases h with h | h | h
      · exact Or.inl h
      · exact Or.inr (h ▸ List.mem_cons_self q t)
      · exact Or.inr (List.mem_cons_of_mem q h)
    · by_cases h2 : k = q.1
      · simp only [rinsert, if_neg h1, if_pos h2, List.mem_cons] at h
        rcases h with h | h
        · exact Or.inl h
        · exact Or.inr (List.mem_cons_of_mem q h)
      · simp only [rinsert, if_neg h1, if_neg h2, List.mem_cons] at h
        rcases h with h | h
        · exact Or.inr (h ▸ List.mem_cons_self q t)
        · rcases ih h with h' | h'
          · exact Or.inl h'
          · exact Or.inr (List.mem_cons_of_mem q h')

theorem mem_rerase {p : Nat × Rec} {k : Nat} {rs : Records}
    (h : p ∈ rerase k rs) : p ∈ rs := by
  induction rs with
  | nil => simp [rerase] at h
  | cons q t ih =>
    by_cases h1 : k = q.1
    · simp only [rerase, if_pos h1] at h
      exact List.mem_cons_of_mem q h
    · simp only [rerase, if_neg h1, List.mem_cons] at h
      rcases h with h | h
      · exact h ▸ List.mem_cons_self q t
      · exact List.mem_cons_of_mem q (ih h)

theorem sorted_rinsert {k : Nat} {v : Rec} {rs : Records} (h : Sorted rs) :
    Sorted (rinsert k v rs) := by
  induction rs with
  | nil => exact List.chain'_singleton (k, v)
  | cons q t ih =>
    by_cases h1 : k < q.1
    · simp only [rinsert, if_pos h1]
      refine sorted_cons_of h ?_
      intro p hp
      rcases List.mem_cons.mp hp with hp' | hp'
      · simpa [hp'] using h1
      · exact lt_trans h1 (sorted_head_lt h p hp')
    · by_cases h2 : k = q.1
      · simp only [rinsert, if_neg h1, if_pos h2]
        refine sorted_cons_of (sorted_tail h) ?_
        intro p hp
        simpa [h2] using sorted_head_lt h p hp
      · simp only [rinsert, if_neg h1, if_neg h2]
        refine sorted_cons_of (ih (sorted_tail h)) ?_
        intro p hp
        rcases mem_rinsert hp with hp' | hp'
        · have : q.1 < k := lt_of_le_of_ne (Nat.le_of_not_lt h1) (fun e => h2 e.symm)
          simpa [hp'] using this
        · exact sorted_head_lt h p hp'

theorem sorted_rerase {k : Nat} {rs : Records} (h : Sorted rs) :
    Sorted (rerase k rs) := by
  induction rs with
  | nil => exact h
  | cons q t ih =>
    by_cases h1 : k = q.1
    · simpa [rerase, if_pos h1] using sorted_tail h
    · simp only [rerase, if_neg h1]
      refine sorted_cons_of (ih (sorted_tail h)) ?_
      intro p hp
      exact sorted_head_lt h p (mem_rerase hp)

theorem rfind_rinsert_self {k : Nat} {v : Rec} {rs : Records} :
    rfind k (rinsert k v rs) = some v := by
  induction rs with
  | nil => simp [rinsert, rfind]
  | cons q t ih =>
    by_cases h1 : k < q.1
    · simp [rinsert, if_pos h1, rfind]
    · by_cases h2 : k = q.1
      · simp [rinsert, if_neg h1, if_pos h2, rfind]
      · simp [rinsert, if_neg h1, if_neg h2, rfind, h2, ih]

theorem rfind_rinsert_ne {j k : Nat} {v : Rec} {rs : Records} (hjk : j ≠ k) :
    rfind j (rinsert k v rs) = rfind j rs := by
  induction rs with
  | nil => simp [rinsert, rfind, hjk]
  | cons q t ih =>
    by_cases h1 : k < q.1
    · simp [rinsert, if_pos h1, rfind, hjk]
    · by_cases h2 : k = q.1
      · by_cases h3 : j = q.1
        · exact absurd (h3.trans h2.symm) hjk
        · simp [rinsert, if_neg h1, if_pos h2, rfind, hjk, h3, h2.symm]
      · by_cases h3 : j = q.1
        · simp [rinsert, if_neg h1, if_neg h2, rfind, h3]
        · simp [rinsert, if_neg h1, if_neg h2, rfind, h3, ih]

theorem rfind_rerase_ne {j k : Nat} {rs : Records} (hjk : j ≠ k) :
    rfind j (rerase k rs) = rfind j rs := by
  induction rs with
  | nil => simp [rerase]
  | cons q t ih =>
    by_cases h1 : k = q.1
    · by_cases h3 : j = q.1
      · exact absurd (h3.trans h1.symm) hjk
      · simp [rerase, if_pos h1, rfind, h3]
    · by_cases h3 : j = q.1
      · simp [rerase, if_neg h1, rfind, h3]
      · simp [rerase, if_neg h1, rfind, h3, ih]

theorem rfind_none_of_forall {k : Nat} {rs : Records}
    (h : ∀ p ∈ rs, p.1 ≠ k) : rfind k rs = none := by
  induction rs with
  | nil => rfl
  | cons q t ih =>
    have hq : k ≠ q.1 := fun e => h q (List.mem_cons_self q t) e.symm
    simp only [rfind, if_neg hq]
    exact ih (fun p hp => h p (List.mem_cons_of_mem q hp))

theorem mem_of_rfind {k : Nat} {v : Rec} {rs : Records}
    (h : rfind k rs = some v) : (k, v) ∈ rs := by
  induction rs with
  | nil => simp [rfind] at h
  | cons q t ih =>
    by_cases h1 : k = q.1
    · simp only [rfind, if_pos h1] at h
      subst h1
      cases q with
      | mk q1 q2 => simp_all
    · simp only [rfind, if_neg h1] at h
      exact List.mem_cons_of_mem q (ih h)

theorem rfind_rerase_self {k : Nat} {rs : Records} (h : Sorted rs) :
    rfind k (rerase k rs) = none := by
  induction rs with
  | nil => rfl
  | cons q t ih =>
    by_cases h1 : k = q.1
    · simp only [rerase, if_pos h1]
      refine rfind_none_of_forall ?_
      intro p hp
      exact fun e => absurd (h1 ▸ e ▸ sorted_head_lt h p hp) (lt_irrefl _)
    · simp only [rerase, if_neg h1, rfind, if_neg h1]
      exact ih (sorted_tail h)

theorem rinsert_front {k : Nat} {v : Rec} {t : Records}
    (h : ∀ p ∈ t, k < p.1) : rinsert k v t = (k, v) :: t := by
  cases t with
  | nil => rfl
  | cons q t => simp [rinsert, h q (List.mem_cons_self q t)]

theorem rerase_rinsert {k : Nat} {v : Rec} {rs : Records}
    (h : rfind k rs = none) : rerase k (rinsert k v rs) = rs := by
  induction rs with
  | nil => simp [rinsert, rerase]
  | cons q t ih =>
    have h1 : k ≠ q.1 := by
      intro e; simp [rfind, e] at h
    have h2 : rfind k t = none := by
      simpa [rfind, h1] using h
    by_cases h3 : k < q.1
    · simp [rinsert, if_pos h3, rerase, h1]
    · simp [rinsert, if_neg h3, if_neg h1, rerase, h1, ih h2]

theorem rinsert_rerase {k : Nat} {v : Rec} {rs : Records} (hs : Sorted rs)
    (h : rfind k rs = some v) : rinsert k v (rerase k rs) = rs := by
  induction rs with
  | nil => simp [rfind] at h
  | cons q t ih =>
    obtain ⟨q1, q2⟩ := q
    by_cases h1 : k = q1
    · subst h1
      simp only [rfind, if_pos rfl] at h
      injection h with h
      subst h
      simp only [rerase, if_pos rfl]
      exact rinsert_front (by intro p hp; exact sorted_head_lt hs p hp)
    · simp only [rfind, if_neg h1] at h
      have hq : q1 < k := sorted_head_lt hs _ (mem_of_rfind h)
      simp only [rerase, if_neg h1, rinsert, if_neg (not_lt_of_gt hq), if_neg h1]
      rw [ih (sorted_tail hs) h]

theorem rinsert_self {k : Nat} {v : Rec} {rs : Records} (hs : Sorted rs)
    (h : rfind k rs = some v) : rinsert k v rs = rs := by
  induction rs with
  | nil => simp [rfind] at h
  | cons q t ih =>
    obtain ⟨q1, q2⟩ := q
    by_cases h1 : k = q1
    · subst h1
      simp only [rfind, if_pos rfl] at h
      injection h with h
      subst h
      simp [rinsert]
    · simp only [rfind, if_neg h1] at h
      have hq : q1 < k := sorted_head_lt hs _ (mem_of_rfind h)
      simp [rinsert, if_neg (not_lt_of_gt hq), if_neg h1, ih (sorted_tail hs) h]

theorem rinsert_rinsert {k : Nat} {v w : Rec} {rs : Records} :
    rinsert k v (rinsert k w rs) = rinsert k v rs := by
  induction rs with
  | nil => simp [rinsert]
  | cons q t ih =>
    by_cases h1 : k < q.1
    · simp [rinsert, if_pos h1, lt_irrefl]
    · by_cases h2 : k = q.1
      · simp [rinsert, if_neg h1, if_pos h2, lt_irrefl]
      · simp [rinsert, if_neg h1, if_neg h2, ih]

theorem sumSizes_cons (q : Nat × Rec) (t : Records) :
    sumSizes (q :: t) = q.2.size + sumSizes t := by
  simp [sumSizes]

theorem sumSizes_rinsert_none {k : Nat} {v : Rec} {rs : Records}
    (h : rfind k rs = none) : sumSizes (rinsert k v rs) = sumSizes rs + v.size := by
  induction rs with
  | nil => simp [rinsert, sumSizes]
  | cons q t ih =>
    have h1 : k ≠ q.1 := by
      intro e; simp [rfind, e] at h
    have h2 : rfind k t = none := by
      simpa [rfind, h1] using h
    by_cases h3 : k < q.1
    · simp only [rinsert, if_pos h3, sumSizes_cons]
      ring
    · simp only [rinsert, if_neg h3, if_neg h1, sumSizes_cons, ih h2]
      ring

theorem sumSizes_rinsert_some {k : Nat} {v w : Rec} {rs : Records} (hs : Sorted rs)
    (h : rfind k rs = some w) :
    sumSizes (rinsert k v rs) = sumSizes rs - w.size + v.size := by
  induction rs with
  | nil => simp [rfind] at h
  | cons q t ih =>
    obtain ⟨q1, q2⟩ := q
    by_cases h1 : k = q1
    · subst h1
      simp only [rfind, if_pos rfl] at h
      injection h with h
      subst h
      rw [show rinsert k v ((k, q2) :: t) = (k, v) :: t by simp [rinsert]]
      simp only [sumSizes_cons]
      ring
    · simp only [rfind, if_neg h1] at h
      have hq : q1 < k := sorted_head_lt hs _ (mem_of_rfind h)
      simp only [rinsert, if_neg (not_lt_of_gt hq), if_neg h1, sumSizes_cons,
        ih (sorted_tail hs) h]
      ring

theorem sumSizes_rerase {k : Nat} {v : Rec} {rs : Records} (hs : Sorted rs)
    (h : rfind k rs = some v) :
    sumSizes (rerase k rs) = sumSizes rs - v.size := by
  induction rs with
  | nil => simp [rfind] at h
  | cons q t ih =>
    obtain ⟨q1, q2⟩ := q
    by_cases h1 : k = q1
    · subst h1
      simp only [rfind, if_pos rfl] at h
      injection h with h
      subst h
      rw [show rerase k ((k, q2) :: t) = t by simp [rerase]]
      simp only [sumSizes_cons]
      ring
    · simp only [rfind, if_neg h1] at h
      simp only [rerase, if_neg h1, sumSizes_cons, ih (sorted_tail hs) h]
      ring

theorem sorted_le_getLast {rs : Records} (hs : Sorted rs) :
    ∀ p ∈ rs, p.1 ≤ ((rs.getLast?.map Prod.fst).getD 0) := by
  induction rs with
  | nil => intro p hp; cases hp
  | cons q t ih =>
    intro p hp
    cases t with
    | nil =>
      rcases List.mem_cons.mp hp with hp' | hp'
      · simp [hp']
      · cases hp'
    | cons r t' =>
      have hlast : ((q :: r :: t').getLast?.map Prod.fst).getD 0
          = (((r :: t').getLast?.map Prod.fst).getD 0) := by
        rw [List.getLast?_cons_cons]
      rw [hlast]
      rcases List.mem_cons.mp hp with hp' | hp'
      · subst hp'
        have hr : r ∈ r :: t' := List.mem_cons_self r t'
        exact le_trans (le_of_lt (sorted_head_lt hs r hr)) (ih (sorted_tail hs) r hr)
      · exact ih (sorted_tail hs) p hp'

/-! ### Rollback infrastructure -/

/-- Agreement on the journal-visible table fields: the records map and
the byte counter — exactly what the rollback claim compares. -/
def SameTable (a b : Data) : Prop :=
  a.records = b.records ∧ a.dataSize = b.dataSize

theorem sameTable_refl {a : Data} : SameTable a a := ⟨Eq.refl _, Eq.refl _⟩

theorem SameTable.trans {a b c : Data} (h1 : SameTable a b) (h2 : SameTable b c) :
    SameTable a c := ⟨h1.1.trans h2.1, h1.2.trans h2.2⟩

theorem rollbackChange_congr {a b : Data} (c : Change) (h : SameTable a b) :
    SameTable (rollbackChange c a) (rollbackChange c b) := by
  obtain ⟨h1, h2⟩ := h
  cases c with
  | insertChange loc =>
    simp only [rollbackChange, h1, h2]
    cases hrf : rfind loc b.records <;> simp [SameTable, h1, h2]
  | removeChange loc rec =>
    simp only [rollbackChange, h1, h2]
    cases hrf : rfind loc b.records <;> simp [SameTable, h1, h2]
  | truncateChange rs sz => exact ⟨rfl, rfl⟩

theorem rollbackAll_congr {a b : Data} (cs : List Change) (h : SameTable a b) :
    SameTable (rollbackAll cs a) (rollbackAll cs b) := by
  induction cs generalizing a b with
  | nil => exact h
  | cons c cs ih => exact ih (rollbackChange_congr c h)

theorem rollbackAll_append (xs ys : List Change) (d : Data) :
    rollbackAll (xs ++ ys) d = rollbackAll ys (rollbackAll xs d) := by
  simp [rollbackAll, List.foldl_append]

theorem insert_step_inv {d : Data} {loc : Nat} {v : Rec}
    (hfresh : rfind loc d.records = none) :
    SameTable
      (rollbackChange (.insertChange loc)
        { d with records := rinsert loc v d.records,
                 dataSize := d.dataSize + v.size }) d := by
  simp only [rollbackChange, rfind_rinsert_self]
  exact ⟨rerase_rinsert hfresh, by push_cast; ring⟩

theorem delete_step_inv {d : Data} {loc : Nat} {rec : Rec} (hs : Sorted d.records)
    (h : rfind loc d.records = some rec) :
    SameTable
      (rollbackChange (.removeChange loc rec)
        { d with records := rerase loc d.records,
                 dataSize := d.dataSize - rec.size }) d := by
  simp only [rollbackChange, rfind_rerase_self hs]
  exact ⟨rinsert_rerase hs h, by push_cast; ring⟩

theorem update_step_inv {d : Data} {loc : Nat} {old new : Rec} (hs : Sorted d.records)
    (h : rfind loc d.records = some old) :
    SameTable
      (rollbackChange (.removeChange loc old)
        { d with records := rinsert loc new d.records,
                 dataSize := d.dataSize + new.size - old.size }) d := by
  simp only [rollbackChange, rfind_rinsert_self]
  refine ⟨?_, by push_cast; ring⟩
  rw [rinsert_rinsert]
  exact rinsert_self hs h

/-! ### Eviction-loop lemmas -/

theorem evict_props {cfg : Cfg} {fuel : Nat} {d d' : Data} {cs : List Change} {b : Bool}
    (hs : Sorted d.records)
    (h : cappedDeleteAsNeeded cfg fuel d = some (d', cs, b)) :
    SameTable (rollbackAll cs.reverse d') d ∧ Sorted d'.records ∧
      (∀ p ∈ d'.records, p ∈ d.records) ∧ d'.nextId = d.nextId ∧
      d'.isOplog = d.isOplog ∧
      (d.dataSize = sumSizes d.records → d'.dataSize = sumSizes d'.records) := by
  induction fuel generalizing d d' cs b with
  | zero =>
    simp only [cappedDeleteAsNeeded] at h
    split at h
    · exact absurd h (by simp)
    · obtain ⟨rfl, rfl, rfl⟩ := Option.some.inj h
      exact ⟨sameTable_refl, hs, fun p hp => hp, rfl, rfl, fun hsum => hsum⟩
  | succ fuel ih =>
    simp only [cappedDeleteAsNeeded] at h
    by_cases hg : cappedAndNeedDelete cfg d
    · simp only [hg, if_true] at h
      split at h
      · exact absurd h (by simp)
      · next id rec rest hrec =>
        by_cases hh : hookOk cfg id rec
        · simp only [hh, if_true] at h
          have hfind : rfind id d.records = some rec := by
            rw [hrec]; simp [rfind]
          simp only [deleteRecord, hfind] at h
          set dt : Data :=
            { d with records := rerase id d.records, dataSize := d.dataSize - rec.size }
            with hdt
          have hterase : dt.records = rest := by
            simp only [hdt, hrec]; simp [rerase]
          have hst : Sorted dt.records := by
            rw [hterase]; exact sorted_tail (hrec ▸ hs)
          match hrest : cappedDeleteAsNeeded cfg fuel dt with
          | none => simp [hrest] at h
          | some (d2, cs2, b2) =>
            simp only [hrest] at h
            obtain ⟨rfl, rfl, rfl⟩ := Option.some.inj h
            obtain ⟨hsame, hsrt, hsub, hnid, hopl, hsum⟩ := ih hst hrest
            refine ⟨?_, hsrt, ?_, ?_, ?_, ?_⟩
            · have h1 : rollbackAll ((Change.removeChange id rec :: cs2).reverse) d'
                  = rollbackChange (.removeChange id rec) (rollbackAll cs2.reverse d') := by
                simp only [List.reverse_cons, rollbackAll_append]
                rfl
              rw [h1]
              refine SameTable.trans
                (rollbackChange_congr (.removeChange id rec) hsame) ?_
              exact delete_step_inv hs hfind
            · intro p hp
              exact mem_rerase (hsub p hp)
            · simpa using hnid
            · simpa using hopl
            · intro hds
              refine hsum ?_
              simp only [hdt]
              rw [sumSizes_rerase hs hfind, hds]
        · simp only [hh, if_false] at h
          obtain ⟨rfl, rfl, rfl⟩ := Option.some.inj h
          exact ⟨sameTable_refl, hs, fun p hp => hp, rfl, rfl, fun hsum => hsum⟩
    · simp only [hg, if_false] at h
      obtain ⟨rfl, rfl, rfl⟩ := Option.some.inj h
      exact ⟨sameTable_refl, hs, fun p hp => hp, rfl, rfl, fun hsum => hsum⟩

theorem evict_needDelete {cfg : Cfg} {fuel : Nat} {d d' : Data} {cs : List Change}
    (h : cappedDeleteAsNeeded cfg fuel d = some (d', cs, true)) :
    cappedAndNeedDelete cfg d' = false := by
  induction fuel generalizing d d' cs with
  | zero =>
    simp only [cappedDeleteAsNeeded] at h
    split at h
    · exact absurd h (by simp)
    · next hg =>
      obtain ⟨rfl, -⟩ := Prod.mk.inj (Option.some.inj h)
      simpa using hg
  | succ fuel ih =>
    simp only [cappedDeleteAsNeeded] at h
    by_cases hg : cappedAndNeedDelete cfg d
    · simp only [hg, if_true] at h
      split at h
      · exact absurd h (by simp)
      · next id rec rest hrec =>
        by_cases hh : hookOk cfg id rec
        · simp only [hh, if_true] at h
          match hdel : deleteRecord d id with
          | none => simp [hdel] at h
          | some (dt, c) =>
            simp only [hdel] at h
            match hrest : cappedDeleteAsNeeded cfg fuel dt with
            | none => simp [hrest] at h
            | some (d2, cs2, b2) =>
              simp only [hrest] at h
              obtain ⟨rfl, -, rfl⟩ := Option.some.inj h
              exact ih hrest
        · simp only [hh, if_false] at h
          simp at h
    · simp only [hg, if_false] at h
      obtain ⟨rfl, -⟩ := Prod.mk.inj (Option.some.inj h)
      simpa using hg

theorem evict_suffix {cfg : Cfg} {fuel : Nat} {d d' : Data} {cs : List Change} {b : Bool}
    (h : cappedDeleteAsNeeded cfg fuel d = some (d', cs, b)) :
    ∃ n, d'.records = d.records.drop n := by
  induction fuel generalizing d d' cs b with
  | zero =>
    simp only [cappedDeleteAsNeeded] at h
    split at h
    · exact absurd h (by simp)
    · obtain ⟨rfl, -⟩ := Prod.mk.inj (Option.some.inj h)
      exact ⟨0, rfl⟩
  | succ fuel ih =>
    simp only [cappedDeleteAsNeeded] at h
    by_cases hg : cappedAndNeedDelete cfg d
    · simp only [hg, if_true] at h
      split at h
      · exact absurd h (by simp)
      · next id rec rest hrec =>
        by_cases hh : hookOk cfg id rec
        · simp only [hh, if_true] at h
          have hfind : rfind id d.records = some rec := by
            rw [hrec]; simp [rfind]
          simp only [deleteRecord, hfind] at h
          set dt : Data :=
            { d with records := rerase id d.records, dataSize := d.dataSize - rec.size }
            with hdt
          match hrest : cappedDeleteAsNeeded cfg fuel dt with
          | none => simp [hrest] at h
          | some (d2, cs2, b2) =>
            simp only [hrest] at h
            obtain ⟨rfl, -, -⟩ := Option.some.inj h
            obtain ⟨n, hn⟩ := ih hrest
            refine ⟨n + 1, ?_⟩
            rw [hn]
            have hterase : dt.records = rest := by
              simp only [hdt, hrec]; simp [rerase]
            rw [hterase, hrec]
            rfl
        · simp only [hh, if_false] at h
          obtain ⟨rfl, -, -⟩ := Option.some.inj h
          exact ⟨0, rfl⟩
    · simp only [hg, if_false] at h
      obtain ⟨rfl, -⟩ := Prod.mk.inj (Option.some.inj h)
      exact ⟨0, rfl⟩

theorem needDelete_empty {cfg : Cfg} {d : Data} (hcfg : CfgWF cfg)
    (hrec : d.records = []) (hsum : d.dataSize = sumSizes d.records) :
    cappedAndNeedDelete cfg d = false := by
  have hds : d.dataSize = 0 := by rw [hsum, hrec]; simp [sumSizes]
  unfold cappedAndNeedDelete
  unfold CfgWF at hcfg
  by_cases hc : cfg.isCapped
  · rw [if_pos hc] at hcfg
    obtain ⟨hms, hmd⟩ := hcfg
    simp only [hc, Bool.not_true, hds, hrec, List.length_nil, Nat.cast_zero,
      Bool.false_eq_true, if_false, gt_iff_lt, bne_iff_ne, ne_eq]
    rw [if_neg (by omega)]
    rw [if_neg (by
      simp only [Bool.and_eq_true, bne_iff_ne, ne_eq, decide_eq_true_eq, not_and]
      omega)]
  · simp [hc]

theorem evict_total {cfg : Cfg} {fuel : Nat} {d : Data}
    (hcfg : CfgWF cfg) (hsum : d.dataSize = sumSizes d.records)
    (hfuel : d.records.length ≤ fuel) :
    (cappedDeleteAsNeeded cfg fuel d).isSome := by
  induction fuel generalizing d with
  | zero =>
    have hrec : d.records = [] := List.length_eq_zero.mp (Nat.le_zero.mp hfuel)
    simp [cappedDeleteAsNeeded, needDelete_empty hcfg hrec hsum]
  | succ fuel ih =>
    rw [Option.isSome_iff_ne_none]
    intro hnone
    simp only [cappedDeleteAsNeeded] at hnone
    by_cases hg : cappedAndNeedDelete cfg d
    · simp only [hg, if_true] at hnone
      split at hnone
      · next hrec => exact absurd hg (by simp [needDelete_empty hcfg hrec hsum])
      · next id rec rest hrec =>
        by_cases hh : hookOk cfg id rec
        · simp only [hh, if_true] at hnone
          have hfind : rfind id d.records = some rec := by
            rw [hrec]; simp [rfind]
          simp only [deleteRecord, hfind] at hnone
          set dt : Data :=
            { d with records := rerase id d.records, dataSize := d.dataSize - rec.size }
            with hdt
          have hterase : dt.records = rest := by
            simp only [hdt, hrec]; simp [rerase]
          have hsum2 : dt.dataSize = sumSizes dt.records := by
            simp only [hdt, hterase]
            rw [hsum, hrec, sumSizes_cons,
              show rerase id ((id, rec) :: rest) = rest from by simp [rerase]]
            ring
          have hlen : dt.records.length ≤ fuel := by
            rw [hterase]
            have hl : d.records.length = rest.length + 1 := by rw [hrec]; rfl
            omega
          have hrecur := ih hsum2 hlen
          match hx : cappedDeleteAsNeeded cfg fuel dt with
          | none => rw [hx] at hrecur; simp at hrecur
          | some (d2, cs2, b2) => simp [hx] at hnone
        · simp [hh] at hnone
    · simp [hg] at hnone

theorem evict_ok {cfg : Cfg} (hhook : ∀ id rec, hookOk cfg id rec = true)
    {fuel : Nat} {d d' : Data} {cs : List Change} {b : Bool}
    (h : cappedDeleteAsNeeded cfg fuel d = some (d', cs, b)) : b = true := by
  induction fuel generalizing d d' cs b with
  | zero =>
    simp only [cappedDeleteAsNeeded] at h
    split at h
    · exact absurd h (by simp)
    · obtain ⟨-, -, rfl⟩ := Option.some.inj h
      rfl
  | succ fuel ih =>
    simp only [cappedDeleteAsNeeded] at h
    by_cases hg : cappedAndNeedDelete cfg d
    · simp only [hg, if_true] at h
      split at h
      · exact absurd h (by simp)
      · next id rec rest hrec =>
        rw [hhook id rec] at h
        simp only [if_true] at h
        match hdel : deleteRecord d id with
        | none => simp [hdel] at h
        | some (dt, c) =>
          simp only [hdel] at h
          match hrest : cappedDeleteAsNeeded cfg fuel dt with
          | none => simp [hrest] at h
          | some (d2, cs2, b2) =>
            simp only [hrest] at h
            obtain ⟨-, -, rfl⟩ := Option.some.inj h
            exact ih hrest
    · simp only [hg, if_false] at h
      obtain ⟨-, -, rfl⟩ := Option.some.inj h
      rfl

/-! ### Per-operation rollback inversion -/

theorem ins_tail_inv {cfg : Cfg} {d0 : Data} {loc : Nat} {payload : List Nat}
    {d2 : Data} {cs2 : List Change} {b : Bool}
    (hs : Sorted d0.records)
    (hfresh : rfind loc d0.records = none)
    (hsum : d0.dataSize = sumSizes d0.records)
    (hfr : d0.isOplog = false → (∀ p ∈ d0.records, p.1 < d0.nextId) ∧ loc < d0.nextId)
    (hev : cappedDeleteAsNeeded cfg
        (rinsert loc ⟨payload⟩ d0.records).length
        { d0 with dataSize := d0.dataSize + (payload.length : Int),
                  records := rinsert loc ⟨payload⟩ d0.records } = some (d2, cs2, b)) :
    SameTable (rollbackAll ((Change.insertChange loc :: cs2).reverse) d2) d0 ∧ WF d2 := by
  have hsmid : Sorted (rinsert loc (⟨payload⟩ : Rec) d0.records) := sorted_rinsert hs
  obtain ⟨hsame, hsrt, hsub, hnid, hopl, hsumimp⟩ := evict_props hsmid hev
  constructor
  · have h1 : rollbackAll ((Change.insertChange loc :: cs2).reverse) d2
        = rollbackChange (.insertChange loc) (rollbackAll cs2.reverse d2) := by
      simp only [List.reverse_cons, rollbackAll_append]
      rfl
    rw [h1]
    exact SameTable.trans (rollbackChange_congr _ hsame) (insert_step_inv hfresh)
  · refine ⟨hsrt, ?_, ?_⟩
    · refine hsumimp ?_
      show d0.dataSize + (payload.length : Int)
          = sumSizes (rinsert loc (⟨payload⟩ : Rec) d0.records)
      rw [sumSizes_rinsert_none hfresh, hsum]
      rfl
    · intro hopl0 p hp
      have hop0 : d0.isOplog = false := hopl ▸ hopl0
      have hp2 := hsub p hp
      have hn : d2.nextId = d0.nextId := hnid
      rcases mem_rinsert hp2 with hp3 | hp3
      · rw [hp3, hn]
        exact (hfr hop0).2
      · rw [hn]
        exact (hfr hop0).1 p hp3

theorem ins_inv {cfg : Cfg} {d : Data} {payload : List Nat} {candidate : Option Nat}
    {r : OpResult Nat} (hwf : WF d)
    (h : insertRecord cfg d payload candidate = some r) :
    SameTable (rollbackAll r.changes.reverse r.d) d ∧ WF r.d := by
  obtain ⟨hs, hsum, hfr⟩ := hwf
  simp only [insertRecord] at h
  split at h
  · obtain rfl := Option.some.inj h
    exact ⟨sameTable_refl, hs, hsum, hfr⟩
  · split at h
    · obtain rfl := Option.some.inj h
      exact ⟨sameTable_refl, hs, hsum, hfr⟩
    · next loc d0 heq =>
      split at h
      · exact absurd h (by simp)
      · next d2 cs2 b2 heq2 =>
        obtain rfl := Option.some.inj h
        by_cases hop : d.isOplog
        · rw [if_pos hop] at heq
          match hex : extractAndCheckLocForOplog d candidate with
          | .error e => rw [hex] at heq; simp [Except.map] at heq
          | .ok c =>
            rw [hex] at heq
            simp only [Except.map, Except.ok.injEq] at heq
            obtain ⟨rfl, rfl⟩ := Prod.mk.inj heq
            have hfresh : rfind c d.records = none := by
              simp only [extractAndCheckLocForOplog] at hex
              match candidate with
              | none => simp at hex
              | some c2 =>
                simp only at hex
                split at hex
                · simp at hex
                · next hguard =>
                  obtain rfl := Except.ok.inj hex
                  by_cases hemp : d.records = []
                  · rw [hemp]; rfl
                  · push_neg at hguard
                    have hlt := hguard hemp
                    refine rfind_none_of_forall ?_
                    intro p hp
                    have := sorted_le_getLast hs p hp
                    omega
            exact ins_tail_inv hs hfresh hsum
              (fun hfalse => absurd hop (by rw [hfalse]; simp)) heq2
        · rw [if_neg hop] at heq
          obtain ⟨rfl, rfl⟩ := Prod.mk.inj (Except.ok.inj heq)
          have hopf : d.isOplog = false := by simpa using hop
          have hfresh : rfind d.nextId d.records = none := by
            refine rfind_none_of_forall ?_
            intro p hp
            exact Nat.ne_of_lt (hfr hopf p hp)
          refine @ins_tail_inv cfg { d with nextId := d.nextId + 1 } d.nextId payload
            d2 cs2 b2 hs hfresh hsum ?_ heq2
          intro _
          exact ⟨fun p hp => Nat.lt_succ_of_lt (hfr hopf p hp), Nat.lt_succ_self _⟩

theorem del_inv {d : Data} {loc : Nat} {dt : Data} {c : Change} (hwf : WF d)
    (h : deleteRecord d loc = some (dt, c)) :
    SameTable (rollbackAll [c].reverse dt) d ∧ WF dt := by
  obtain ⟨hs, hsum, hfr⟩ := hwf
  simp only [deleteRecord] at h
  match hf : rfind loc d.records with
  | none => simp [hf] at h
  | some rec =>
    simp only [hf] at h
    obtain ⟨rfl, rfl⟩ := Prod.mk.inj (Option.some.inj h)
    refine ⟨delete_step_inv hs hf, sorted_rerase hs, ?_, ?_⟩
    · show d.dataSize - (rec.size : Int) = sumSizes (rerase loc d.records)
      rw [sumSizes_rerase hs hf, hsum]
    · intro ho p hp
      exact hfr ho p (mem_rerase hp)

theorem upd_inv {cfg : Cfg} {notifier : Option (Nat → Bool)} {d : Data} {loc : Nat}
    {payload : List Nat} {r : OpResult Nat} (hwf : WF d)
    (h : updateRecord cfg notifier d loc payload = some r) :
    SameTable (rollbackAll r.changes.reverse r.d) d ∧ WF r.d := by
  obtain ⟨hs, hsum, hfr⟩ := hwf
  simp only [updateRecord] at h
  match hf : rfind loc d.records with
  | none => simp [hf] at h
  | some oldRec =>
    simp only [hf] at h
    split at h
    · obtain rfl := Option.some.inj h
      exact ⟨sameTable_refl, hs, hsum, hfr⟩
    · split at h
      · obtain rfl := Option.some.inj h
        exact ⟨sameTable_refl, hs, hsum, hfr⟩
      · split at h
        · exact absurd h (by simp)
        · next d2 cs2 b2 heq2 =>
          obtain rfl := Option.some.inj h
          have hsmid : Sorted (rinsert loc (⟨payload⟩ : Rec) d.records) :=
            sorted_rinsert hs
          obtain ⟨hsame, hsrt, hsub, hnid, hopl, hsumimp⟩ := evict_props hsmid heq2
          constructor
          · have h1 : rollbackAll ((Change.removeChange loc oldRec :: cs2).reverse) d2
                = rollbackChange (.removeChange loc oldRec) (rollbackAll cs2.reverse d2) := by
              simp only [List.reverse_cons, rollbackAll_append]
              rfl
            rw [h1]
            exact SameTable.trans (rollbackChange_congr _ hsame) (update_step_inv hs hf)
          · refine ⟨hsrt, ?_, ?_⟩
            · refine hsumimp ?_
              show d.dataSize + (payload.length : Int) - oldRec.size
                  = sumSizes (rinsert loc (⟨payload⟩ : Rec) d.records)
              rw [sumSizes_rinsert_some hs hf, hsum]
              simp only [Rec.size]
              ring
            · intro hopl0 p hp
              have hop0 : d.isOplog = false := hopl ▸ hopl0
              have hn : d2.nextId = d.nextId := hnid
              rcases mem_rinsert (hsub p hp) with hp3 | hp3
              · rw [hp3, hn]
                exact hfr hop0 (loc, oldRec) (mem_of_rfind hf)
              · rw [hn]
                exact hfr hop0 p hp3

theorem trunc_inv {d : Data} (hwf : WF d) :
    SameTable (rollbackAll [(truncateStore d).2].reverse (truncateStore d).1) d ∧
      WF (truncateStore d).1 := by
  obtain ⟨hs, hsum, hfr⟩ := hwf
  refine ⟨⟨rfl, rfl⟩, ?_, ?_, ?_⟩
  · exact List.chain'_nil
  · rfl
  · intro _ p hp
    cases hp

theorem applyOp_inv {cfg : Cfg} {d : Data} {op : Op} {d1 : Data} {cs : List Change}
    (hwf : WF d) (h : applyOp cfg d op = some (d1, cs)) :
    SameTable (rollbackAll cs.reverse d1) d ∧ WF d1 := by
  cases op with
  | ins payload candidate =>
    simp only [applyOp] at h
    match hins : insertRecord cfg d payload candidate with
    | none => simp [hins] at h
    | some r =>
      simp only [hins, Option.map_some] at h
      obtain ⟨rfl, rfl⟩ := Prod.mk.inj (Option.some.inj h)
      exact ins_inv hwf hins
  | del loc =>
    simp only [applyOp] at h
    match hdel : deleteRecord d loc with
    | none => simp [hdel] at h
    | some (dt, c) =>
      simp only [hdel, Option.map_some] at h
      obtain ⟨rfl, rfl⟩ := Prod.mk.inj (Option.some.inj h)
      exact del_inv hwf hdel
  | upd loc payload nok =>
    simp only [applyOp] at h
    match hupd : updateRecord cfg (some (fun _ => nok)) d loc payload with
    | none => simp [hupd] at h
    | some r =>
      simp only [hupd, Option.map_some] at h
      obtain ⟨rfl, rfl⟩ := Prod.mk.inj (Option.some.inj h)
      exact upd_inv hwf hupd
  | trunc =>
    simp only [applyOp] at h
    obtain ⟨rfl, rfl⟩ := Prod.mk.inj (Option.some.inj h)
    exact trunc_inv hwf

theorem applySeq_inv {cfg : Cfg} {ops : List Op} : ∀ {d d' : Data} {cs : List Change},
    WF d → applySeq cfg d ops = some (d', cs) →
    SameTable (rollbackAll cs.reverse d') d ∧ WF d' := by
  induction ops with
  | nil =>
    intro d d' cs hwf h
    simp only [applySeq] at h
    obtain ⟨rfl, rfl⟩ := Prod.mk.inj (Option.some.inj h)
    exact ⟨sameTable_refl, hwf⟩
  | cons op ops ih =>
    intro d d' cs hwf h
    simp only [applySeq] at h
    match hop : applyOp cfg d op with
    | none => simp [hop] at h
    | some (d1, cs1) =>
      simp only [hop] at h
      match hseq : applySeq cfg d1 ops with
      | none => simp [hseq] at h
      | some (d2, cs2) =>
        simp only [hseq] at h
        obtain ⟨rfl, rfl⟩ := Prod.mk.inj (Option.some.inj h)
        obtain ⟨hsame1, hwf1⟩ := applyOp_inv hwf hop
        obtain ⟨hsame2, hwf2⟩ := ih hwf1 hseq
        refine ⟨?_, hwf2⟩
        rw [List.reverse_append, rollbackAll_append]
        exact SameTable.trans (rollbackAll_congr cs1.reverse hsame2) hsame1

/-! ### Claim C1: rollback restores the table -/

/-- C1: for every sequence of insert/delete/update/truncate operations on a
well-formed table, if every registered change's rollback is invoked in
reverse registration order (transaction abort), the records map and the
byte counter equal their values before the sequence began, whatever the
starting state and operation order. -/
theorem C1_rollback_restores {cfg : Cfg} {d d' : Data} {ops : List Op}
    {cs : List Change} (hwf : WF d) (h : applySeq cfg d ops = some (d', cs)) :
    (rollbackAll cs.reverse d').records = d.records ∧
      (rollbackAll cs.reverse d').dataSize = d.dataSize :=
  (applySeq_inv hwf h).1

/-- C1 witness: a capped store holding one record, mutated by an insert, an
update, a delete and a truncate, then fully rolled back. -/
theorem C1_rollback_restores_witness :
    (rollbackAll
        ([Change.insertChange 2, Change.removeChange 1 ⟨[5]⟩,
          Change.removeChange 2 ⟨[1, 1]⟩,
          Change.truncateChange [(1, ⟨[7]⟩)] 1] : List Change).reverse
        (⟨[], 0, 3, false⟩ : Data)).records
      = (⟨[(1, ⟨[5]⟩)], 1, 2, false⟩ : Data).records ∧
    (rollbackAll
        ([Change.insertChange 2, Change.removeChange 1 ⟨[5]⟩,
          Change.removeChange 2 ⟨[1, 1]⟩,
          Change.truncateChange [(1, ⟨[7]⟩)] 1] : List Change).reverse
        (⟨[], 0, 3, false⟩ : Data)).dataSize
      = (⟨[(1, ⟨[5]⟩)], 1, 2, false⟩ : Data).dataSize :=
  @C1_rollback_restores ⟨true, 3, -1, none⟩ ⟨[(1, ⟨[5]⟩)], 1, 2, false⟩
    ⟨[], 0, 3, false⟩ [.ins [1, 1] none, .upd 1 [7] true, .del 2, .trunc]
    [Change.insertChange 2, Change.removeChange 1 ⟨[5]⟩,
     Change.removeChange 2 ⟨[1, 1]⟩, Change.truncateChange [(1, ⟨[7]⟩)] 1]
    (by decide) (by decide)

/-! ### Claims C5 and C6: capped rejections before any mutation -/

/-- C5: on a capped table, an insert or update whose payload exceeds
`cappedMaxSize` returns an error before any eviction and before any
journal registration: the state is unchanged and no change is
registered.  (For the update the reachable-state fact that the existing
record fits the ceiling pins the capped-growth gate.) -/
theorem C5_oversized_rejected_unchanged {cfg : Cfg} (hcap : cfg.isCapped = true) :
    (∀ (d : Data) (payload : List Nat) (candidate : Option Nat),
        (payload.length : Int) > cfg.cappedMaxSize →
        insertRecord cfg d payload candidate = some ⟨d, [], .error .oversized⟩) ∧
    (∀ (notifier : Option (Nat → Bool)) (d : Data) (loc : Nat) (payload : List Nat)
        (old : Rec), rfind loc d.records = some old →
        (old.size : Int) ≤ cfg.cappedMaxSize →
        (payload.length : Int) > cfg.cappedMaxSize →
        updateRecord cfg notifier d loc payload = some ⟨d, [], .error .cappedGrowth⟩) := by
  constructor
  · intro d payload candidate hbig
    simp only [insertRecord]
    rw [if_pos ⟨hcap, hbig⟩]
  · intro notifier d loc payload old hf hold hbig
    simp only [updateRecord, hf]
    rw [if_pos ⟨hcap, by omega⟩]

/-- C5 witness: a capped store with ceiling 3, a 4-byte insert and a 4-byte
update of a 1-byte record, both rejected with no state change. -/
theorem C5_oversized_rejected_unchanged_witness :
    insertRecord ⟨true, 3, -1, none⟩ ⟨[(1, ⟨[5]⟩)], 1, 2, false⟩ [9, 9, 9, 9] none
        = some ⟨⟨[(1, ⟨[5]⟩)], 1, 2, false⟩, [], .error .oversized⟩ ∧
      updateRecord ⟨true, 3, -1, none⟩ none ⟨[(1, ⟨[5]⟩)], 1, 2, false⟩ 1 [9, 9, 9, 9]
        = some ⟨⟨[(1, ⟨[5]⟩)], 1, 2, false⟩, [], .error .cappedGrowth⟩ :=
  ⟨(C5_oversized_rejected_unchanged rfl).1 ⟨[(1, ⟨[5]⟩)], 1, 2, false⟩ [9, 9, 9, 9]
      none (by decide),
   (C5_oversized_rejected_unchanged rfl).2 none ⟨[(1, ⟨[5]⟩)], 1, 2, false⟩ 1
      [9, 9, 9, 9] ⟨[5]⟩ (by decide) (by decide) (by decide)⟩

/-- C6: on a capped table, an update growing an existing record returns the
capped-growth error with no journal entry and no state change, whatever
notifier is supplied — in particular the notifier is never consulted,
since even an always-failing notifier leaves the result unchanged. -/
theorem C6_capped_growth_rejected {cfg : Cfg} {notifier : Option (Nat → Bool)}
    {d : Data} {loc : Nat} {payload : List Nat} {old : Rec}
    (hcap : cfg.isCapped = true) (hf : rfind loc d.records = some old)
    (hgrow : (payload.length : Int) > (old.size : Int)) :
    updateRecord cfg notifier d loc payload = some ⟨d, [], .error .cappedGrowth⟩ := by
  simp only [updateRecord, hf]
  rw [if_pos ⟨hcap, hgrow⟩]

/-- C6 witness: growing a 1-byte record to 2 bytes under an always-failing
notifier still yields the capped-growth error with an unchanged table. -/
theorem C6_capped_growth_rejected_witness :
    updateRecord ⟨true, 10, -1, none⟩ (some (fun _ => false))
        ⟨[(1, ⟨[5]⟩)], 1, 2, false⟩ 1 [7, 7]
      = some ⟨⟨[(1, ⟨[5]⟩)], 1, 2, false⟩, [], .error .cappedGrowth⟩ :=
  @C6_capped_growth_rejected ⟨true, 10, -1, none⟩ (some (fun _ => false))
    ⟨[(1, ⟨[5]⟩)], 1, 2, false⟩ 1 [7, 7] ⟨[5]⟩ rfl (by decide) (by decide)

/-! ### Claim C2: capped invariant after successful insert/update -/

theorem needDelete_false_bounds {cfg : Cfg} {d : Data} (hcap : cfg.isCapped = true)
    (h : cappedAndNeedDelete cfg d = false) :
    d.dataSize ≤ cfg.cappedMaxSize ∧
      (cfg.cappedMaxDocs ≠ -1 → (d.records.length : Int) ≤ cfg.cappedMaxDocs) := by
  unfold cappedAndNeedDelete at h
  rw [hcap] at h
  simp only [Bool.not_true, Bool.false_eq_true, if_false] at h
  have h1 : ¬(d.dataSize > cfg.cappedMaxSize) := by
    intro hgt
    rw [if_pos hgt] at h
    simp at h
  have h2 : ¬((cfg.cappedMaxDocs != -1 &&
      decide ((d.records.length : Int) > cfg.cappedMaxDocs)) = true) := by
    intro hb
    rw [if_neg h1, if_pos hb] at h
    simp at h
  refine ⟨by omega, ?_⟩
  intro hmd
  by_contra hgt
  push_neg at hgt
  apply h2
  simp only [Bool.and_eq_true, bne_iff_ne, ne_eq, decide_eq_true_eq]
  exact ⟨hmd, by omega⟩

theorem withLoc_records {d : Data} {candidate : Option Nat} {loc : Nat} {d0 : Data}
    (heq : (if d.isOplog = true then
        (extractAndCheckLocForOplog d candidate).map (fun c => (c, d))
      else Except.ok (allocateLoc d)) = Except.ok (loc, d0)) :
    d0.records = d.records ∧ d0.dataSize = d.dataSize := by
  by_cases hop : d.isOplog = true
  · rw [if_pos hop] at heq
    match hex : extractAndCheckLocForOplog d candidate with
    | .error e => rw [hex] at heq; simp [Except.map] at heq
    | .ok c =>
      rw [hex] at heq
      simp only [Except.map, Except.ok.injEq] at heq
      obtain ⟨-, rfl⟩ := Prod.mk.inj heq
      exact ⟨rfl, rfl⟩
  · rw [if_neg hop] at heq
    obtain ⟨-, rfl⟩ := Prod.mk.inj (Except.ok.inj heq)
    exact ⟨rfl, rfl⟩

/-- C2: for a capped table, after any successful insert or update the byte
counter is at most `cappedMaxSize`, the record count is at most
`cappedMaxDocs` when that is bounded, and the surviving records are a
suffix of the pre-eviction table (the new/updated record inserted into
the old table): eviction removed exactly a prefix of the oldest
identifiers, never a younger record while an older one remained. -/
theorem C2_capped_invariant {cfg : Cfg} (hcap : cfg.isCapped = true) :
    (∀ (d : Data) (payload : List Nat) (candidate : Option Nat) (r : OpResult Nat)
        (loc : Nat),
        insertRecord cfg d payload candidate = some r → r.res = .ok loc →
        r.d.dataSize ≤ cfg.cappedMaxSize ∧
          (cfg.cappedMaxDocs ≠ -1 → (r.d.records.length : Int) ≤ cfg.cappedMaxDocs) ∧
          ∃ n, r.d.records = (rinsert loc ⟨payload⟩ d.records).drop n) ∧
    (∀ (notifier : Option (Nat → Bool)) (d : Data) (loc : Nat) (payload : List Nat)
        (r : OpResult Nat) (ret : Nat),
        updateRecord cfg notifier d loc payload = some r → r.res = .ok ret →
        r.d.dataSize ≤ cfg.cappedMaxSize ∧
          (cfg.cappedMaxDocs ≠ -1 → (r.d.records.length : Int) ≤ cfg.cappedMaxDocs) ∧
          ∃ n, r.d.records = (rinsert loc ⟨payload⟩ d.records).drop n) := by
  constructor
  · intro d payload candidate r loc hins hres
    simp only [insertRecord] at hins
    split at hins
    · obtain rfl := Option.some.inj hins
      simp at hres
    · split at hins
      · obtain rfl := Option.some.inj hins
        simp at hres
      · next loc0 d0 heq =>
        split at hins
        · exact absurd hins (by simp)
        · next d2 cs2 b2 heq2 =>
          obtain rfl := Option.some.inj hins
          simp only at hres
          by_cases hb : b2 = true
          · rw [if_pos hb] at hres
            obtain rfl := Except.ok.inj hres
            obtain ⟨hrec0, -⟩ := withLoc_records heq
            subst hb
            obtain ⟨h1, h2⟩ := needDelete_false_bounds hcap (evict_needDelete heq2)
            refine ⟨h1, h2, ?_⟩
            obtain ⟨n, hn⟩ := evict_suffix heq2
            refine ⟨n, ?_⟩
            simpa [hrec0] using hn
          · rw [if_neg hb] at hres
            simp at hres
  · intro notifier d loc payload r ret hupd hres
    simp only [updateRecord] at hupd
    match hf : rfind loc d.records with
    | none => simp [hf] at hupd
    | some oldRec =>
      simp only [hf] at hupd
      split at hupd
      · obtain rfl := Option.some.inj hupd
        simp at hres
      · split at hupd
        · obtain rfl := Option.some.inj hupd
          simp at hres
        · split at hupd
          · exact absurd hupd (by simp)
          · next d2 cs2 b2 heq2 =>
            obtain rfl := Option.some.inj hupd
            simp only at hres
            by_cases hb : b2 = true
            · subst hb
              obtain ⟨h1, h2⟩ := needDelete_false_bounds hcap (evict_needDelete heq2)
              refine ⟨h1, h2, ?_⟩
              obtain ⟨n, hn⟩ := evict_suffix heq2
              exact ⟨n, hn⟩
            · rw [if_neg hb] at hres
              simp at hres

/-- C2 witness: capped table with max two documents holding identifiers 1
and 2; inserting a third record evicts exactly identifier 1, leaving the
suffix {2, 3} within both ceilings. -/
theorem C2_capped_invariant_witness :
    (⟨[(2, ⟨[2]⟩), (3, ⟨[3]⟩)], 2, 4, false⟩ : Data).dataSize ≤ (100 : Int) ∧
      ((2 : Int) ≠ -1 →
        (((⟨[(2, ⟨[2]⟩), (3, ⟨[3]⟩)], 2, 4, false⟩ : Data).records.length : Int)
          ≤ (2 : Int))) ∧
      ∃ n, (⟨[(2, ⟨[2]⟩), (3, ⟨[3]⟩)], 2, 4, false⟩ : Data).records
        = (rinsert 3 ⟨[3]⟩ [(1, ⟨[1]⟩), (2, ⟨[2]⟩)]).drop n :=
  (@C2_capped_invariant ⟨true, 100, 2, none⟩ rfl).1
    ⟨[(1, ⟨[1]⟩), (2, ⟨[2]⟩)], 2, 3, false⟩ [3] none
    ⟨⟨[(2, ⟨[2]⟩), (3, ⟨[3]⟩)], 2, 4, false⟩,
      [.insertChange 3, .removeChange 1 ⟨[1]⟩], .ok 3⟩ 3 rfl rfl

/-! ### Claim C4: log-typed identifier acceptance -/

theorem extract_ok_facts {d : Data} {candidate : Option Nat} {c : Nat}
    (hs : Sorted d.records)
    (hex : extractAndCheckLocForOplog d candidate = .ok c) :
    candidate = some c ∧ (∀ p ∈ d.records, p.1 < c) ∧
      ¬(d.records ≠ [] ∧ c ≤ ((d.records.getLast?.map Prod.fst).getD 0)) := by
  unfold extractAndCheckLocForOplog at hex
  match candidate with
  | none => simp at hex
  | some c2 =>
    simp only at hex
    split at hex
    · simp at hex
    · next hguard =>
      obtain rfl := Except.ok.inj hex
      refine ⟨rfl, ?_, hguard⟩
      intro p hp
      by_cases hemp : d.records = []
      · rw [hemp] at hp; cases hp
      · push_neg at hguard
        have h1 := hguard hemp
        have h2 := sorted_le_getLast hs p hp
        omega

theorem extract_error_guard {d : Data} {candidate : Option Nat} {e : Err}
    (hex : extractAndCheckLocForOplog d candidate = .error e) :
    candidate = none ∨
      (e = .outOfOrder ∧ d.records ≠ [] ∧
        ((candidate.getD 0) ≤ ((d.records.getLast?.map Prod.fst).getD 0))) := by
  unfold extractAndCheckLocForOplog at hex
  match candidate with
  | none => exact Or.inl rfl
  | some c2 =>
    simp only at hex
    split at hex
    · next hguard =>
      obtain rfl := (Except.error.inj hex).symm
      exact Or.inr ⟨rfl, hguard.1, hguard.2⟩
    · simp at hex

/-- C4 (amended): for a log-typed table in a well-formed state, when the
payload does not trip the capped byte-ceiling gate and the eviction
callback never fails, an insert whose extracted identifier is
`candidate` fails — with no mutation and no journal entry — exactly when
the table is non-empty and `candidate` is at most the current maximum
identifier; when it succeeds the accepted identifier exceeds every
identifier previously in the table, so accepted identifiers form a
strictly increasing sequence. -/
theorem C4_oplog_monotonic {cfg : Cfg} {d : Data} {payload : List Nat} {c : Nat}
    (hcfg : CfgWF cfg) (hwf : WF d) (hop : d.isOplog = true)
    (hhook : ∀ id rec, hookOk cfg id rec = true)
    (hfit : ¬(cfg.isCapped = true ∧ (payload.length : Int) > cfg.cappedMaxSize)) :
    ∃ r, insertRecord cfg d payload (some c) = some r ∧
      ((d.records ≠ [] ∧ c ≤ ((d.records.getLast?.map Prod.fst).getD 0)) →
        r = ⟨d, [], .error .outOfOrder⟩) ∧
      (¬(d.records ≠ [] ∧ c ≤ ((d.records.getLast?.map Prod.fst).getD 0)) →
        r.res = .ok c ∧ ∀ p ∈ d.records, p.1 < c) := by
  obtain ⟨hs, hsum, -⟩ := hwf
  by_cases hg : d.records ≠ [] ∧ c ≤ ((d.records.getLast?.map Prod.fst).getD 0)
  · have hex : extractAndCheckLocForOplog d (some c) = .error .outOfOrder := by
      simp only [extractAndCheckLocForOplog]
      rw [if_pos hg]
    have hEq : insertRecord cfg d payload (some c)
        = some ⟨d, [], .error .outOfOrder⟩ := by
      simp only [insertRecord]
      rw [if_neg hfit, if_pos hop, hex]
      rfl
    exact ⟨_, hEq, fun _ => rfl, fun hx => absurd hg hx⟩
  · have hex : extractAndCheckLocForOplog d (some c) = .ok c := by
      simp only [extractAndCheckLocForOplog]
      rw [if_neg hg]
    have hall : ∀ p ∈ d.records, p.1 < c := (extract_ok_facts hs hex).2.1
    have hfresh : rfind c d.records = none :=
      rfind_none_of_forall (fun p hp => Nat.ne_of_lt (hall p hp))
    have htot := @evict_total cfg ((rinsert c (⟨payload⟩ : Rec) d.records).length)
      { d with dataSize := d.dataSize + (payload.length : Int),
               records := rinsert c ⟨payload⟩ d.records } hcfg
      (by
        show d.dataSize + (payload.length : Int)
            = sumSizes (rinsert c ⟨payload⟩ d.records)
        rw [sumSizes_rinsert_none hfresh, hsum]
        rfl)
      (le_refl _)
    match hev : cappedDeleteAsNeeded cfg ((rinsert c (⟨payload⟩ : Rec) d.records).length)
        { d with dataSize := d.dataSize + (payload.length : Int),
                 records := rinsert c ⟨payload⟩ d.records } with
    | none => rw [hev] at htot; simp at htot
    | some (d2, cs2, b2) =>
      obtain rfl := evict_ok hhook hev
      have hEq : insertRecord cfg d payload (some c)
          = some ⟨d2, .insertChange c :: cs2, .ok c⟩ := by
        simp only [insertRecord]
        rw [if_neg hfit, if_pos hop, hex]
        simp only [Except.map]
        rw [hev]
        rfl
      exact ⟨_, hEq, fun hx => absurd hx hg, fun _ => ⟨rfl, hall⟩⟩

/-- C4 counterexample: on a capped log-typed table an oversized payload is
rejected before the identifier check, so the insert fails although the
table is empty and the candidate exceeds every stored identifier —
refuting "fails exactly when the table is non-empty and candidate ≤
current maximum". -/
theorem C4_oplog_monotonic_counterexample :
    insertRecord ⟨true, 5, -1, none⟩ ⟨[], 0, 1, true⟩ [0, 0, 0, 0, 0, 0] (some 7)
        = some ⟨⟨[], 0, 1, true⟩, [], .error .oversized⟩ ∧
      ¬((⟨[], 0, 1, true⟩ : Data).records ≠ [] ∧
        7 ≤ (((⟨[], 0, 1, true⟩ : Data).records.getLast?.map Prod.fst).getD 0)) :=
  ⟨rfl, by decide⟩

/-- C4 witness: log-typed table holding identifier 5; inserting candidate 6
succeeds and 6 exceeds every stored identifier. -/
theorem C4_oplog_monotonic_witness :
    ∃ r, insertRecord ⟨false, -1, -1, none⟩ ⟨[(5, ⟨[9]⟩)], 1, 1, true⟩ [8] (some 6)
        = some r ∧
      (((⟨[(5, ⟨[9]⟩)], 1, 1, true⟩ : Data).records ≠ [] ∧
          6 ≤ ((((⟨[(5, ⟨[9]⟩)], 1, 1, true⟩ : Data).records.getLast?.map
            Prod.fst)).getD 0)) →
        r = ⟨⟨[(5, ⟨[9]⟩)], 1, 1, true⟩, [], .error .outOfOrder⟩) ∧
      (¬((⟨[(5, ⟨[9]⟩)], 1, 1, true⟩ : Data).records ≠ [] ∧
          6 ≤ ((((⟨[(5, ⟨[9]⟩)], 1, 1, true⟩ : Data).records.getLast?.map
            Prod.fst)).getD 0)) →
        r.res = .ok 6 ∧ ∀ p ∈ (⟨[(5, ⟨[9]⟩)], 1, 1, true⟩ : Data).records, p.1 < 6) :=
  @C4_oplog_monotonic ⟨false, -1, -1, none⟩ ⟨[(5, ⟨[9]⟩)], 1, 1, true⟩ [8] 6
    (by simp [CfgWF]) (by decide) rfl (fun _ _ => rfl) (by decide)

/-! ### Cursor lemmas -/

theorem forall_of_rfind_none {k : Nat} {rs : Records} (h : rfind k rs = none) :
    ∀ p ∈ rs, p.1 ≠ k := by
  induction rs with
  | nil => intro p hp; cases hp
  | cons q t ih =>
    intro p hp
    by_cases hkq : k = q.1
    · simp [rfind, hkq] at h
    · simp only [rfind, if_neg hkq] at h
      rcases List.mem_cons.mp hp with hp2 | hp2
      · rw [hp2]; exact fun e => hkq e.symm
      · exact ih h p hp2

theorem rfind_of_mem {rs : Records} {p : Nat × Rec} (hp : p ∈ rs) :
    ∃ v, rfind p.1 rs = some v := by
  induction rs with
  | nil => cases hp
  | cons q t ih =>
    by_cases hkq : p.1 = q.1
    · exact ⟨q.2, by simp [rfind, hkq]⟩
    · rcases List.mem_cons.mp hp with hp2 | hp2
      · exact absurd (congrArg Prod.fst hp2) hkq
      · obtain ⟨v, hv⟩ := ih hp2
        exact ⟨v, by simp [rfind, hkq, hv]⟩

theorem lowerBoundKey_mem {s : Nat} {rs : Records} {j : Nat}
    (h : lowerBoundKey s rs = some j) : j ∈ rs.map Prod.fst ∧ s ≤ j := by
  induction rs with
  | nil => simp [lowerBoundKey] at h
  | cons q t ih =>
    by_cases hsq : s ≤ q.1
    · simp only [lowerBoundKey, if_pos hsq] at h
      obtain rfl := Option.some.inj h
      exact ⟨by simp, hsq⟩
    · simp only [lowerBoundKey, if_neg hsq] at h
      obtain ⟨h1, h2⟩ := ih h
      exact ⟨by rw [List.map_cons]; exact List.mem_cons_of_mem _ h1, h2⟩

theorem lowerBoundKey_spec {rs : Records} {s j : Nat} (hs : Sorted rs)
    (hj : j ∈ rs.map Prod.fst) (hsj : s ≤ j)
    (hmin : ∀ j2 ∈ rs.map Prod.fst, s ≤ j2 → j ≤ j2) :
    lowerBoundKey s rs = some j := by
  induction rs with
  | nil => simp at hj
  | cons q t ih =>
    by_cases hsq : s ≤ q.1
    · simp only [lowerBoundKey, if_pos hsq]
      have hja : j ≤ q.1 := hmin q.1 (by simp) hsq
      rw [List.map_cons] at hj
      rcases List.mem_cons.mp hj with hj2 | hj2
      · rw [hj2]
      · obtain ⟨p, hp, rfl⟩ := List.mem_map.mp hj2
        have := sorted_head_lt hs p hp
        omega
    · simp only [lowerBoundKey, if_neg hsq]
      rw [List.map_cons] at hj
      rcases List.mem_cons.mp hj with hj2 | hj2
      · omega
      · refine ih (sorted_tail hs) hj2 ?_
        intro j2 hj3 hsj2
        exact hmin j2 (by rw [List.map_cons]; exact List.mem_cons_of_mem _ hj3) hsj2

theorem lastLEKey_mem {s : Nat} {rs : Records} {j : Nat}
    (h : lastLEKey s rs = some j) : j ∈ rs.map Prod.fst ∧ j ≤ s := by
  induction rs with
  | nil => simp [lastLEKey] at h
  | cons q t ih =>
    by_cases hqs : q.1 ≤ s
    · simp only [lastLEKey, if_pos hqs] at h
      match ht : lastLEKey s t with
      | none =>
        rw [ht] at h
        simp only [Option.getD_none] at h
        obtain rfl := Option.some.inj h
        exact ⟨by simp, hqs⟩
      | some j2 =>
        rw [ht] at h
        simp only [Option.getD_some] at h
        obtain rfl := Option.some.inj h
        obtain ⟨h1, h2⟩ := ih ht
        exact ⟨by rw [List.map_cons]; exact List.mem_cons_of_mem _ h1, h2⟩
    · simp [lastLEKey, if_neg hqs] at h

theorem lastLEKey_spec {rs : Records} {s j : Nat} (hs : Sorted rs)
    (hj : j ∈ rs.map Prod.fst) (hjs : j ≤ s)
    (hmax : ∀ j2 ∈ rs.map Prod.fst, j2 ≤ s → j2 ≤ j) :
    lastLEKey s rs = some j := by
  induction rs with
  | nil => simp at hj
  | cons q t ih =>
    by_cases hqs : q.1 ≤ s
    · simp only [lastLEKey, if_pos hqs]
      rw [List.map_cons] at hj
      rcases List.mem_cons.mp hj with hj2 | hj2
      · match ht : lastLEKey s t with
        | none => simp [ht, hj2]
        | some j2 =>
          obtain ⟨h1, h2⟩ := lastLEKey_mem ht
          obtain ⟨p, hp, rfl⟩ := List.mem_map.mp h1
          have hlt := sorted_head_lt hs p hp
          have := hmax p.1
            (by rw [List.map_cons]; exact List.mem_cons_of_mem _ h1) h2
          omega
      · have hrec := ih (sorted_tail hs) hj2
          (fun j2 hj3 hsj2 => hmax j2
            (by rw [List.map_cons]; exact List.mem_cons_of_mem _ hj3) hsj2)
        simp [hrec]
    · exfalso
      rw [List.map_cons] at hj
      rcases List.mem_cons.mp hj with hj2 | hj2
      · omega
      · obtain ⟨p, hp, rfl⟩ := List.mem_map.mp hj2
        have := sorted_head_lt hs p hp
        omega

/-! ### Claim C3: cursor save / delete / restore -/

/-- C3: a cursor positioned at identifier `K` is saved, `K` is deleted, and
`restore` is called.  On a non-capped table `restore` returns `true` and
the following `next` yields the smallest remaining identifier above `K`
for a forward cursor and the largest remaining identifier below `K` for
a reverse cursor; on a capped table `restore` returns `false` in this
same scenario, for both directions. -/
theorem C3_cursor_stability {rs : Records} {K : Nat} {rec : Rec}
    (hs : Sorted rs) (hK : rfind K rs = some rec) (hKpos : 0 < K) :
    (fwdRestore false (rerase K rs) (cursorSave ⟨some K, false, false, 0⟩)).1 = true ∧
    (∀ j, j ∈ (rerase K rs).map Prod.fst → K < j →
      (∀ j2 ∈ (rerase K rs).map Prod.fst, K < j2 → j ≤ j2) →
      ((fwdNext (rerase K rs)
        (fwdRestore false (rerase K rs) (cursorSave ⟨some K, false, false, 0⟩)).2).1.map
          Prod.fst) = some j) ∧
    (revRestore false (rerase K rs) (cursorSave ⟨some K, false, false, 0⟩)).1 = true ∧
    (∀ j, j ∈ (rerase K rs).map Prod.fst → j < K →
      (∀ j2 ∈ (rerase K rs).map Prod.fst, j2 < K → j2 ≤ j) →
      ((revNext (rerase K rs)
        (revRestore false (rerase K rs) (cursorSave ⟨some K, false, false, 0⟩)).2).1.map
          Prod.fst) = some j) ∧
    (fwdRestore true (rerase K rs) (cursorSave ⟨some K, false, false, 0⟩)).1 = false ∧
    (revRestore true (rerase K rs) (cursorSave ⟨some K, false, false, 0⟩)).1 = false := by
  have hKnot : ∀ p ∈ rerase K rs, p.1 ≠ K :=
    forall_of_rfind_none (rfind_rerase_self hs)
  have hs2 : Sorted (rerase K rs) := sorted_rerase hs
  have hsave : cursorSave ⟨some K, false, false, 0⟩ = ⟨some K, false, false, K⟩ := by
    simp [cursorSave]
  have hKne : ¬(K = 0) := by omega
  have hlmrF : lowerBoundKey K (rerase K rs) = none ∨
      lowerBoundKey K (rerase K rs) ≠ some K := by
    match hlb : lowerBoundKey K (rerase K rs) with
    | none => exact Or.inl rfl
    | some j =>
      refine Or.inr ?_
      intro he
      obtain rfl := Option.some.inj he
      obtain ⟨h1, -⟩ := lowerBoundKey_mem hlb
      obtain ⟨p, hp, hpe⟩ := List.mem_map.mp h1
      exact hKnot p hp hpe
  have hlmrR : lastLEKey K (rerase K rs) = none ∨
      lastLEKey K (rerase K rs) ≠ some K := by
    match hlb : lastLEKey K (rerase K rs) with
    | none => exact Or.inl rfl
    | some j =>
      refine Or.inr ?_
      intro he
      obtain rfl := Option.some.inj he
      obtain ⟨h1, -⟩ := lastLEKey_mem hlb
      obtain ⟨p, hp, hpe⟩ := List.mem_map.mp h1
      exact hKnot p hp hpe
  refine ⟨?_, ?_, ?_, ?_, ?_, ?_⟩
  · rw [hsave]
    simp [fwdRestore, hKne]
  · intro j hj hKj hmin
    have hjK : j ≠ K := (Nat.ne_of_lt hKj).symm
    have hlb : lowerBoundKey K (rerase K rs) = some j := by
      refine lowerBoundKey_spec hs2 hj (le_of_lt hKj) ?_
      intro j2 hj2 hsj2
      obtain ⟨p, hp, rfl⟩ := List.mem_map.mp hj2
      exact hmin p.1 hj2 (lt_of_le_of_ne hsj2 (fun e => hKnot p hp e.symm))
    obtain ⟨p, hp, rfl⟩ := List.mem_map.mp hj
    obtain ⟨v, hv⟩ := rfind_of_mem hp
    rw [hsave]
    simp [fwdRestore, hKne, fwdNext, hlb, derefAt, hv, hjK]
  · rw [hsave]
    simp [revRestore, hKne]
  · intro j hj hjK hmax
    have hjK2 : j ≠ K := Nat.ne_of_lt hjK
    have hlb : lastLEKey K (rerase K rs) = some j := by
      refine lastLEKey_spec hs2 hj (le_of_lt hjK) ?_
      intro j2 hj2 hsj2
      obtain ⟨p, hp, rfl⟩ := List.mem_map.mp hj2
      exact hmax p.1 hj2 (lt_of_le_of_ne hsj2 (fun e => hKnot p hp e))
    obtain ⟨p, hp, rfl⟩ := List.mem_map.mp hj
    obtain ⟨v, hv⟩ := rfind_of_mem hp
    rw [hsave]
    simp [revRestore, hKne, revNext, hlb, derefAt, hv, hjK2]
  · rw [hsave]
    rcases hlmrF with hnone | hne
    · simp [fwdRestore, hKne, hnone]
    · simp [fwdRestore, hKne, hne]
  · rw [hsave]
    rcases hlmrR with hnone | hne
    · simp [revRestore, hKne, hnone]
    · simp [revRestore, hKne, hne]

/-- C3 witness: table {3, 5, 9}, cursor saved at 5, record 5 deleted.
Forward restore succeeds and next yields 9; reverse restore succeeds and
next yields 3; capped restore fails in both directions. -/
theorem C3_cursor_stability_witness :
    (fwdRestore false (rerase 5 [(3, ⟨[0]⟩), (5, ⟨[1]⟩), (9, ⟨[2]⟩)])
        (cursorSave ⟨some 5, false, false, 0⟩)).1 = true ∧
    ((fwdNext (rerase 5 [(3, ⟨[0]⟩), (5, ⟨[1]⟩), (9, ⟨[2]⟩)])
        (fwdRestore false (rerase 5 [(3, ⟨[0]⟩), (5, ⟨[1]⟩), (9, ⟨[2]⟩)])
          (cursorSave ⟨some 5, false, false, 0⟩)).2).1.map Prod.fst) = some 9 ∧
    (revRestore false (rerase 5 [(3, ⟨[0]⟩), (5, ⟨[1]⟩), (9, ⟨[2]⟩)])
        (cursorSave ⟨some 5, false, false, 0⟩)).1 = true ∧
    ((revNext (rerase 5 [(3, ⟨[0]⟩), (5, ⟨[1]⟩), (9, ⟨[2]⟩)])
        (revRestore false (rerase 5 [(3, ⟨[0]⟩), (5, ⟨[1]⟩), (9, ⟨[2]⟩)])
          (cursorSave ⟨some 5, false, false, 0⟩)).2).1.map Prod.fst) = some 3 ∧
    (fwdRestore true (rerase 5 [(3, ⟨[0]⟩), (5, ⟨[1]⟩), (9, ⟨[2]⟩)])
        (cursorSave ⟨some 5, false, false, 0⟩)).1 = false ∧
    (revRestore true (rerase 5 [(3, ⟨[0]⟩), (5, ⟨[1]⟩), (9, ⟨[2]⟩)])
        (cursorSave ⟨some 5, false, false, 0⟩)).1 = false := by
  have h := @C3_cursor_stability [(3, ⟨[0]⟩), (5, ⟨[1]⟩), (9, ⟨[2]⟩)] 5 ⟨[1]⟩
    (by decide) (by decide) (by decide)
  exact ⟨h.1, h.2.1 9 (by decide) (by decide) (by decide), h.2.2.1,
    h.2.2.2.1 3 (by decide) (by decide) (by decide), h.2.2.2.2.1, h.2.2.2.2.2⟩

/-! ### Claim C10: advance after a failed seekExact hits end -/

/-- C10: for both cursor directions and any identifier absent from the
table, `seekExact` reports the miss and the immediately following
`next` returns end rather than any record of the table. -/
theorem C10_seek_absent_then_end {rs : Records} {c : CursorState} {id : Nat}
    (h : rfind id rs = none) :
    (fwdSeekExact rs c id).1 = none ∧
      (fwdNext rs (fwdSeekExact rs c id).2).1 = none ∧
      (revSeekExact rs c id).1 = none ∧
      (revNext rs (revSeekExact rs c id).2).1 = none := by
  refine ⟨by simp [fwdSeekExact, h], ?_, by simp [revSeekExact, h], ?_⟩
  · simp [fwdSeekExact, h, fwdNext, derefAt]
  · simp [revSeekExact, h, revNext, derefAt]

/-- C10 witness: seeking the absent identifier 4 in the table {3, 5} misses,
and the following advance returns end for both directions. -/
theorem C10_seek_absent_then_end_witness :
    (fwdSeekExact [(3, ⟨[0]⟩), (5, ⟨[1]⟩)] .init 4).1 = none ∧
      (fwdNext [(3, ⟨[0]⟩), (5, ⟨[1]⟩)]
        (fwdSeekExact [(3, ⟨[0]⟩), (5, ⟨[1]⟩)] .init 4).2).1 = none ∧
      (revSeekExact [(3, ⟨[0]⟩), (5, ⟨[1]⟩)] .init 4).1 = none ∧
      (revNext [(3, ⟨[0]⟩), (5, ⟨[1]⟩)]
        (revSeekExact [(3, ⟨[0]⟩), (5, ⟨[1]⟩)] .init 4).2).1 = none :=
  C10_seek_absent_then_end (by decide)

/-! ### Claim C7: oplogStartHack -/

theorem sorted_takeWhile {rs : Records} (hs : Sorted rs) (p : Nat × Rec → Bool) :
    Sorted (rs.takeWhile p) := by
  induction rs with
  | nil => exact hs
  | cons q t ih =>
    by_cases hq : p q = true
    · rw [List.takeWhile_cons, if_pos hq]
      refine sorted_cons_of (ih (sorted_tail hs)) ?_
      intro x hx
      exact sorted_head_lt hs x ((List.takeWhile_sublist _).subset hx)
    · rw [List.takeWhile_cons, if_neg hq]
      exact List.chain'_nil

theorem sorted_dropWhile {rs : Records} (hs : Sorted rs) (p : Nat × Rec → Bool) :
    Sorted (rs.dropWhile p) := by
  induction rs with
  | nil => exact hs
  | cons q t ih =>
    by_cases hq : p q = true
    · rw [List.dropWhile_cons, if_pos hq]
      exact ih (sorted_tail hs)
    · rw [List.dropWhile_cons, if_neg hq]
      exact hs

theorem dropWhile_head_not {p : Nat × Rec → Bool} {rs : Records} {x : Nat × Rec}
    (h : (rs.dropWhile p).head? = some x) : p x = false := by
  induction rs with
  | nil => simp [List.dropWhile] at h
  | cons q t ih =>
    by_cases hq : p q = true
    · rw [List.dropWhile_cons, if_pos hq] at h
      exact ih h
    · rw [List.dropWhile_cons, if_neg hq] at h
      obtain rfl := Option.some.inj (by simpa using h)
      simpa using hq

theorem getLast_key_of_max {rs : Records} {j : Nat} {v : Rec} (hs : Sorted rs)
    (hj : (j, v) ∈ rs) (hmax : ∀ x ∈ rs, x.1 ≤ j) :
    ∃ w, rs.getLast? = some (j, w) := by
  match hlast : rs.getLast? with
  | none =>
    rw [List.getLast?_eq_none_iff] at hlast
    rw [hlast] at hj
    cases hj
  | some last =>
    have hmem : last ∈ rs := List.mem_of_mem_getLast? hlast
    have h1 : j ≤ last.1 := by
      have := sorted_le_getLast hs (j, v) hj
      rw [hlast] at this
      simpa using this
    have h2 : last.1 ≤ j := hmax last hmem
    refine ⟨last.2, ?_⟩
    have h3 : last.1 = j := by omega
    rw [← h3]

theorem osCore_max {rs : Records} {start j : Nat} {v : Rec} (hs : Sorted rs)
    (hj : (j, v) ∈ rs) (hjs : j ≤ start)
    (hmax : ∀ x ∈ rs, x.1 ≤ start → x.1 ≤ j) :
    osCore rs start = .idRes j := by
  unfold osCore
  have hsplit : rs.takeWhile (fun q : Nat × Rec => decide (q.1 < start)) ++
      rs.dropWhile (fun q : Nat × Rec => decide (q.1 < start)) = rs :=
    List.takeWhile_append_dropWhile _ _
  match hhead : (rs.dropWhile (fun q : Nat × Rec => decide (q.1 < start))).head? with
  | some kw =>
    obtain ⟨k, w⟩ := kw
    have hkp : decide (k < start) = false := by
      simpa using dropWhile_head_not hhead
    have hks : ¬(k < start) := by simpa using hkp
    simp only [hhead]
    by_cases hsk : start < k
    · rw [if_pos hsk]
      have hjb : (j, v) ∈ rs.takeWhile (fun q : Nat × Rec => decide (q.1 < start)) := by
        have hj2 := hj
        rw [← hsplit] at hj2
        rcases List.mem_append.mp hj2 with hb | ha
        · exact hb
        · exfalso
          match hal : rs.dropWhile (fun q : Nat × Rec => decide (q.1 < start)) with
          | [] => rw [hal] at hhead; simp at hhead
          | q :: t2 =>
            rw [hal] at hhead ha
            obtain rfl := Option.some.inj (by simpa using hhead)
            have hsa : Sorted ((k, w) :: t2) := by
              rw [← hal]
              exact sorted_dropWhile hs _
            rcases List.mem_cons.mp ha with he | he
            · have : j = k := congrArg Prod.fst he
              omega
            · have := sorted_head_lt hsa _ he
              simp only at this
              omega
      have hmaxb : ∀ x ∈ rs.takeWhile (fun q : Nat × Rec => decide (q.1 < start)),
          x.1 ≤ j := by
        intro x hx
        have hpx := List.mem_takeWhile_imp hx
        simp only [decide_eq_true_eq] at hpx
        exact hmax x ((List.takeWhile_sublist _).subset hx) (by omega)
      obtain ⟨w2, hlast⟩ := getLast_key_of_max (sorted_takeWhile hs _) hjb hmaxb
      rw [hlast]
    · rw [if_neg hsk]
      have hkm : (k, w) ∈ rs := by
        match hal : rs.dropWhile (fun q : Nat × Rec => decide (q.1 < start)) with
        | [] => rw [hal] at hhead; simp at hhead
        | q :: t2 =>
          rw [hal] at hhead
          obtain rfl := Option.some.inj (by simpa using hhead)
          have hm2 : (k, w) ∈ rs.dropWhile (fun q : Nat × Rec => decide (q.1 < start)) := by
            rw [hal]
            exact List.mem_cons_self _ _
          exact (List.dropWhile_sublist _).subset hm2
      have hk1 : k ≤ j := hmax (k, w) hkm (by omega)
      have : j = k := by omega
      rw [this]
  | none =>
    have hde : rs.dropWhile (fun q : Nat × Rec => decide (q.1 < start)) = [] := by
      rwa [List.head?_eq_none_iff] at hhead
    have hbe : rs.takeWhile (fun q : Nat × Rec => decide (q.1 < start)) = rs := by
      rw [← hsplit, hde, List.append_nil]
      rw [List.takeWhile_idem]
    simp only [hhead]
    have hmax2 : ∀ x ∈ rs, x.1 ≤ j := by
      intro x hx
      have hxb : x ∈ rs.takeWhile (fun q : Nat × Rec => decide (q.1 < start)) := by
        rw [hbe]; exact hx
      have hpx := List.mem_takeWhile_imp hxb
      simp only [decide_eq_true_eq] at hpx
      exact hmax x hx (by omega)
    obtain ⟨w2, hlast⟩ := getLast_key_of_max hs hj hmax2
    rw [hbe, hlast]

theorem osCore_undef {rs : Records} {start : Nat} (hne : rs ≠ [])
    (hall : ∀ x ∈ rs, start < x.1) :
    osCore rs start = .undef := by
  match rs, hne with
  | (k, v) :: t, _ =>
    have hk : start < k := hall (k, v) (List.mem_cons_self _ _)
    have hd : decide ((k : Nat) < start) = false := by simp; omega
    simp [osCore, List.takeWhile_cons, List.dropWhile_cons, hd, hk]

/-- C7 (amended): `start_position_for` on a log-typed table returns the
largest identifier at or before the target when one exists; on an empty
table it returns the null identifier `RecordId()` (not "none"); when the
table is non-empty and every identifier exceeds the target — including
the null target — the behaviour is undefined (`--` on `begin()`); on a
non-log-typed table it returns no value. -/
theorem C7_oplog_start_amended {d : Data} {start : Nat} (hs : Sorted d.records) :
    (d.isOplog = false → oplogStartHack d start = .noneRes) ∧
    (d.isOplog = true → d.records = [] → oplogStartHack d start = .idRes 0) ∧
    (d.isOplog = true → ∀ j v, (j, v) ∈ d.records → j ≤ start →
      (∀ x ∈ d.records, x.1 ≤ start → x.1 ≤ j) →
      oplogStartHack d start = .idRes j) ∧
    (d.isOplog = true → d.records ≠ [] → (∀ x ∈ d.records, start < x.1) →
      oplogStartHack d start = .undef) := by
  refine ⟨?_, ?_, ?_, ?_⟩
  · intro h
    simp [oplogStartHack, h]
  · intro hop hemp
    simp [oplogStartHack, hop, hemp]
  · intro hop j v hj hjs hmax
    have hne : d.records ≠ [] := by
      intro he
      rw [he] at hj
      cases hj
    simp only [oplogStartHack]
    rw [if_neg (by simp [hop]), if_neg (by simpa [List.isEmpty_iff] using hne)]
    exact osCore_max hs hj hjs hmax
  · intro hop hne hall
    simp only [oplogStartHack]
    rw [if_neg (by simp [hop]), if_neg (by simpa [List.isEmpty_iff] using hne)]
    exact osCore_undef hne hall

/-- C7 counterexample: on an empty log-typed table `oplogStartHack` returns
the null identifier `RecordId()`, not "none" — refuting "if the table is
empty it returns none". -/
theorem C7_oplog_start_counterexample :
    oplogStartHack ⟨[], 0, 1, true⟩ 5 = OplogStart.idRes 0 ∧
      OplogStart.idRes 0 ≠ OplogStart.noneRes :=
  ⟨rfl, by decide⟩

/-- C7 witness: table {3, 5, 9}: target 6 finds 5; target 2 (below every
identifier) is the undefined iterator decrement; empty table yields the
null identifier; non-log-typed store yields no value. -/
theorem C7_oplog_start_witness :
    oplogStartHack ⟨[(3, ⟨[0]⟩), (5, ⟨[1]⟩), (9, ⟨[2]⟩)], 3, 1, true⟩ 6
        = OplogStart.idRes 5 ∧
      oplogStartHack ⟨[(3, ⟨[0]⟩), (5, ⟨[1]⟩), (9, ⟨[2]⟩)], 3, 1, true⟩ 2
        = OplogStart.undef ∧
      oplogStartHack ⟨[], 0, 1, true⟩ 7 = OplogStart.idRes 0 ∧
      oplogStartHack ⟨[(3, ⟨[0]⟩)], 1, 1, false⟩ 7 = OplogStart.noneRes := by
  have h6 := @C7_oplog_start_amended ⟨[(3, ⟨[0]⟩), (5, ⟨[1]⟩), (9, ⟨[2]⟩)], 3, 1, true⟩
    6 (by decide)
  have h2 := @C7_oplog_start_amended ⟨[(3, ⟨[0]⟩), (5, ⟨[1]⟩), (9, ⟨[2]⟩)], 3, 1, true⟩
    2 (by decide)
  have hemp := @C7_oplog_start_amended ⟨[], 0, 1, true⟩ 7 (by decide)
  have hno := @C7_oplog_start_amended ⟨[(3, ⟨[0]⟩)], 1, 1, false⟩ 7 (by decide)
  exact ⟨h6.2.2.1 rfl 5 ⟨[1]⟩ (by decide) (by decide) (by decide),
    h2.2.2.2 rfl (by decide) (by decide),
    hemp.2.1 rfl rfl,
    hno.1 rfl⟩

/-! ### Claim C8: the in-place update notifier -/

/-- C8 (amended): the "about to update in place" notifier is consumed by
`updateRecord`, not `updateWithDamages`.  When supplied, `updateRecord`
invokes it after the capped-growth gate and before any mutation: a
failing notifier aborts the update with that failure, registering no
journal entry and leaving records and the byte counter unchanged.
`updateWithDamages` itself takes no notifier. -/
theorem C8_notifier_gates_update {cfg : Cfg} {d : Data} {loc : Nat}
    {payload : List Nat} {old : Rec} {f : Nat → Bool}
    (hf : rfind loc d.records = some old)
    (hnogrow : ¬(cfg.isCapped = true ∧ (payload.length : Int) > (old.size : Int)))
    (hfail : f loc = false) :
    updateRecord cfg (some f) d loc payload
      = some ⟨d, [], .error .notifierFailed⟩ := by
  simp only [updateRecord, hf]
  rw [if_neg hnogrow]
  simp [hfail]

/-- C8 counterexample: `updateWithDamages` accepts no notifier and applies
the patch unconditionally.  On a store holding record 1 = [5], the patch
succeeds, mutates the stored bytes and registers a journal entry, even
though an always-failing notifier (failing at identifier 1) is at hand —
no notifier can abort the patch, refuting the claim that a supplied
failing notifier makes the patch return the failure with state
unchanged. -/
theorem C8_notifier_counterexample :
    ((fun _ : Nat => false) 1 = false) ∧
    updateWithDamages ⟨false, -1, -1, none⟩ ⟨[(1, ⟨[5]⟩)], 1, 2, false⟩ 1 [7]
        [⟨0, 0, 1⟩]
      = some ⟨⟨[(1, ⟨[7]⟩)], 1, 2, false⟩, [.removeChange 1 ⟨[5]⟩], .ok [7]⟩ ∧
    (⟨[(1, ⟨[7]⟩)], 1, 2, false⟩ : Data) ≠ ⟨[(1, ⟨[5]⟩)], 1, 2, false⟩ :=
  ⟨rfl, rfl, by decide⟩

/-- C8 witness: a failing notifier aborts `updateRecord` with the notifier
error and an unchanged table. -/
theorem C8_notifier_gates_update_witness :
    updateRecord ⟨false, -1, -1, none⟩ (some (fun _ => false))
        ⟨[(1, ⟨[5]⟩)], 1, 2, false⟩ 1 [7]
      = some ⟨⟨[(1, ⟨[5]⟩)], 1, 2, false⟩, [], .error .notifierFailed⟩ :=
  @C8_notifier_gates_update ⟨false, -1, -1, none⟩ ⟨[(1, ⟨[5]⟩)], 1, 2, false⟩ 1 [7]
    ⟨[5]⟩ (fun _ => false) (by decide) (by decide) rfl

/-! ### Claim C9: frame conditions of updateWithDamages -/

theorem applyDamage_length (source data : List Nat) (dmg : Damage) :
    (applyDamage source data dmg).length = data.length := by
  simp [applyDamage]

theorem foldl_applyDamage_length (source : List Nat) (damages : List Damage) :
    ∀ data : List Nat, (damages.foldl (applyDamage source) data).length = data.length := by
  induction damages with
  | nil => intro data; rfl
  | cons dmg rest ih =>
    intro data
    rw [List.foldl_cons, ih, applyDamage_length]

theorem applyDamage_getD_outside {source data : List Nat} {dmg : Damage} {i : Nat}
    (h : i < dmg.targetOffset ∨ dmg.targetOffset + dmg.size ≤ i) :
    (applyDamage source data dmg).getD i 0 = data.getD i 0 := by
  by_cases hi : i < data.length
  · have h1 : (applyDamage source data dmg).getD i 0
        = (if dmg.targetOffset ≤ i ∧ i < dmg.targetOffset + dmg.size then
            source.getD (dmg.sourceOffset + (i - dmg.targetOffset)) 0
          else data.getD i 0) := by
      simp [applyDamage, List.getD_eq_getElem?_getD, List.getElem?_map,
        List.getElem?_range, hi]
    rw [h1, if_neg (by omega)]
  · have h1 : (applyDamage source data dmg).getD i 0 = 0 :=
      List.getD_eq_default _ _ (by rw [applyDamage_length]; omega)
    have h2 : data.getD i 0 = 0 := List.getD_eq_default _ _ (by omega)
    rw [h1, h2]

theorem foldl_applyDamage_getD_outside {source : List Nat} {damages : List Damage}
    {i : Nat}
    (h : ∀ dmg ∈ damages, i < dmg.targetOffset ∨ dmg.targetOffset + dmg.size ≤ i) :
    ∀ data : List Nat,
      (damages.foldl (applyDamage source) data).getD i 0 = data.getD i 0 := by
  induction damages with
  | nil => intro data; rfl
  | cons dmg rest ih =>
    intro data
    rw [List.foldl_cons, ih (fun d2 hd2 => h d2 (List.mem_cons_of_mem _ hd2)),
      applyDamage_getD_outside (h dmg (List.mem_cons_self _ _))]

theorem rinsert_length_of_mem {loc : Nat} {v : Rec} {rs : Records} {old : Rec}
    (hs : Sorted rs) (hf : rfind loc rs = some old) :
    (rinsert loc v rs).length = rs.length := by
  induction rs with
  | nil => simp [rfind] at hf
  | cons q t ih =>
    obtain ⟨q1, q2⟩ := q
    by_cases h1 : loc = q1
    · subst h1
      simp [rinsert]
    · simp only [rfind, if_neg h1] at hf
      have hq : q1 < loc := sorted_head_lt hs _ (mem_of_rfind hf)
      simp [rinsert, if_neg (not_lt_of_gt hq), if_neg h1,
        ih (sorted_tail hs) hf]

/-- C9: for a table within its capped limits, an in-place patch of the
record at `loc` keeps the stored record's size and the byte counter
unchanged, leaves the record at every other identifier untouched, and
changes only the payload bytes of `loc` that lie inside the damage
list's target ranges. -/
theorem C9_damages_frame {cfg : Cfg} {d : Data} {loc : Nat} {old : Rec}
    {source : List Nat} {damages : List Damage} {r : OpResult (List Nat)}
    (hs : Sorted d.records) (hf : rfind loc d.records = some old)
    (hlim : cappedAndNeedDelete cfg d = false)
    (h : updateWithDamages cfg d loc source damages = some r) :
    r.res = .ok (damages.foldl (applyDamage source) old.data) ∧
    r.d.dataSize = d.dataSize ∧
    (∀ k, k ≠ loc → rfind k r.d.records = rfind k d.records) ∧
    rfind loc r.d.records = some ⟨damages.foldl (applyDamage source) old.data⟩ ∧
    (damages.foldl (applyDamage source) old.data).length = old.data.length ∧
    (∀ i, (∀ dmg ∈ damages, i < dmg.targetOffset ∨ dmg.targetOffset + dmg.size ≤ i) →
      (damages.foldl (applyDamage source) old.data).getD i 0 = old.data.getD i 0) := by
  simp only [updateWithDamages, hf] at h
  have hg1 : cappedAndNeedDelete cfg
      { d with records := rinsert loc old d.records } = false := by
    unfold cappedAndNeedDelete at hlim ⊢
    simpa [rinsert_length_of_mem hs hf] using hlim
  have hev : cappedDeleteAsNeeded cfg (rinsert loc old d.records).length
      { d with records := rinsert loc old d.records }
      = some ({ d with records := rinsert loc old d.records }, [], true) := by
    cases hfl : (rinsert loc old d.records).length with
    | zero => simp [cappedDeleteAsNeeded, hg1]
    | succ n => simp [cappedDeleteAsNeeded, hg1]
  simp only [hev] at h
  simp only [rfind_rinsert_self, Option.isSome_some, if_true] at h
  obtain rfl := Option.some.inj h
  refine ⟨rfl, rfl, ?_, ?_, foldl_applyDamage_length source damages old.data, ?_⟩
  · intro k hk
    show rfind k (rinsert loc ⟨damages.foldl (applyDamage source) old.data⟩
        (rinsert loc old d.records)) = rfind k d.records
    rw [rfind_rinsert_ne hk, rfind_rinsert_ne hk]
  · show rfind loc (rinsert loc ⟨damages.foldl (applyDamage source) old.data⟩
        (rinsert loc old d.records)) = _
    rw [rfind_rinsert_self]
  · intro i hi
    exact foldl_applyDamage_getD_outside hi old.data

/-- C9 witness: patching record 1 = [5,6,7,8] at target offset 1 with two
source bytes leaves its size, the byte counter and record 2 unchanged, and
only bytes 1 and 2 of record 1 differ. -/
theorem C9_damages_frame_witness :
    (⟨⟨[(1, ⟨[5, 70, 80, 8]⟩), (2, ⟨[9]⟩)], 5, 3, false⟩,
        [.removeChange 1 ⟨[5, 6, 7, 8]⟩], .ok [5, 70, 80, 8]⟩ :
        OpResult (List Nat)).res
      = .ok (([⟨0, 1, 2⟩] : List Damage).foldl (applyDamage [70, 80]) [5, 6, 7, 8]) ∧
    (⟨⟨[(1, ⟨[5, 70, 80, 8]⟩), (2, ⟨[9]⟩)], 5, 3, false⟩,
        [.removeChange 1 ⟨[5, 6, 7, 8]⟩], .ok [5, 70, 80, 8]⟩ :
        OpResult (List Nat)).d.dataSize
      = (⟨[(1, ⟨[5, 6, 7, 8]⟩), (2, ⟨[9]⟩)], 5, 3, false⟩ : Data).dataSize ∧
    (∀ k, k ≠ 1 →
      rfind k (⟨⟨[(1, ⟨[5, 70, 80, 8]⟩), (2, ⟨[9]⟩)], 5, 3, false⟩,
          [.removeChange 1 ⟨[5, 6, 7, 8]⟩], .ok [5, 70, 80, 8]⟩ :
          OpResult (List Nat)).d.records
        = rfind k (⟨[(1, ⟨[5, 6, 7, 8]⟩), (2, ⟨[9]⟩)], 5, 3, false⟩ : Data).records) ∧
    rfind 1 (⟨⟨[(1, ⟨[5, 70, 80, 8]⟩), (2, ⟨[9]⟩)], 5, 3, false⟩,
        [.removeChange 1 ⟨[5, 6, 7, 8]⟩], .ok [5, 70, 80, 8]⟩ :
        OpResult (List Nat)).d.records
      = some ⟨([⟨0, 1, 2⟩] : List Damage).foldl (applyDamage [70, 80]) [5, 6, 7, 8]⟩ ∧
    (([⟨0, 1, 2⟩] : List Damage).foldl (applyDamage [70, 80]) [5, 6, 7, 8]).length
      = ([5, 6, 7, 8] : List Nat).length ∧
    (∀ i, (∀ dmg ∈ ([⟨0, 1, 2⟩] : List Damage),
        i < dmg.targetOffset ∨ dmg.targetOffset + dmg.size ≤ i) →
      (([⟨0, 1, 2⟩] : List Damage).foldl (applyDamage [70, 80]) [5, 6, 7, 8]).getD i 0
        = ([5, 6, 7, 8] : List Nat).getD i 0) :=
  @C9_damages_frame ⟨false, -1, -1, none⟩
    ⟨[(1, ⟨[5, 6, 7, 8]⟩), (2, ⟨[9]⟩)], 5, 3, false⟩ 1 ⟨[5, 6, 7, 8]⟩
    [70, 80] [⟨0, 1, 2⟩]
    ⟨⟨[(1, ⟨[5, 70, 80, 8]⟩), (2, ⟨[9]⟩)], 5, 3, false⟩,
      [.removeChange 1 ⟨[5, 6, 7, 8]⟩], .ok [5, 70, 80, 8]⟩
    (by decide) (by decide) (by decide) rfl

end InMemoryRS
